import Mathlib

/-!
# Verification of the Road Network Generation Service

Shallow embedding of `backend/app/services/road_network.py` (module
`sitelayout.road_network`).  The service builds a terrain-aware road network:
it discretizes a bounding box into a grid, samples elevation, masks exclusion
zones, builds a grade-constrained cost graph, selects a spanning topology over
the asset points, routes each topology edge, simplifies the resulting paths
and aggregates statistics.

Modelling conventions:
* Python floats are modelled by `ℚ`.  The transcendental geographic
  primitives (`haversine_distance`, which uses `sin`/`cos`/`asin`/`sqrt`, and
  `math.cos(math.radians lat)` used by the degree/meter conversions) are not
  expressible as computable rational functions; they are abstracted into a
  `GeoPrims` record that the rest of the code is parametric in.  Every
  property proved below is independent of the concrete values these
  primitives return (or states its dependence as an explicit hypothesis).
* Third-party library calls are modelled by their documented behaviour:
  `networkx.Graph` becomes an explicit node/edge-list structure,
  `networkx.minimum_spanning_tree` of the complete asset graph becomes a
  deterministic Prim construction (the proved claims depend only on it being
  a spanning tree of a complete graph), `networkx.astar_path` becomes a
  total search returning `some` path exactly when the endpoints are
  connected, shapely's `LineString.simplify` becomes Douglas–Peucker with
  squared-distance comparisons, and rasterio sampling becomes an abstract
  `ℚ → ℚ → Option ℚ` sampler (`none` = nodata).
* Mutation of `GridNode` lists becomes explicit list-to-list functions; the
  progress callback becomes an explicit trace of `(percent, stage-name)`
  pairs returned next to the result.
-/

/-- Abstracted transcendental geographic primitives.
`hdist lon1 lat1 lon2 lat2` models `haversine_distance` (the great-circle
formula built from `sin`/`cos`/`asin`/`sqrt`), and `cosr lat` models
`math.cos(math.radians lat)` as used by `meters_to_degrees`. -/
structure GeoPrims where
  hdist : ℚ → ℚ → ℚ → ℚ → ℚ
  cosr : ℚ → ℚ

/-- Model of `METERS_PER_DEGREE_LAT = 111320`. -/
def METERS_PER_DEGREE_LAT : ℚ := 111320

/-- Model of `haversine_distance(lon1, lat1, lon2, lat2)`: abstracted into the
`GeoPrims` record (see module docstring). -/
def haversine_distance (gp : GeoPrims) (lon1 lat1 lon2 lat2 : ℚ) : ℚ :=
  gp.hdist lon1 lat1 lon2 lat2

/-- Model of `calculate_grade(lon1, lat1, elev1, lon2, lat2, elev2)`:
percent grade between two points; `0` when the horizontal distance is
below 1 cm, otherwise `|Δelev| / distance × 100`. -/
def calculate_grade (gp : GeoPrims) (lon1 lat1 elev1 lon2 lat2 elev2 : ℚ) : ℚ :=
  let horizontal_distance := haversine_distance gp lon1 lat1 lon2 lat2
  if horizontal_distance < 1/100 then 0
  else
    let elevation_change := |elev2 - elev1|
    elevation_change / horizontal_distance * 100

/-- Model of `meters_to_degrees(meters, latitude)`. -/
def meters_to_degrees (gp : GeoPrims) (meters latitude : ℚ) : ℚ :=
  let meters_per_degree_lon := METERS_PER_DEGREE_LAT * gp.cosr latitude
  let avg_meters_per_degree := (METERS_PER_DEGREE_LAT + meters_per_degree_lon) / 2
  meters / avg_meters_per_degree

/-- A node of the pathfinding grid (`GridNode` dataclass).  `slope` is unused
by the algorithm and omitted. -/
structure GridNode where
  x : ℚ
  y : ℚ
  row : ℕ
  col : ℕ
  elevation : Option ℚ := none
  is_valid : Bool := true
deriving DecidableEq

/-- Model of `np.arange(start, stop, step)` over `ℚ` (for positive step). -/
def arangeQ (start stop step : ℚ) : List ℚ :=
  let n : ℕ := if 0 < step then (⌈(stop - start) / step⌉).toNat else 0
  (List.range n).map (fun i => start + (i : ℚ) * step)

/-- Model of `generate_pathfinding_grid(bounds, resolution)`: row-major list of grid
nodes covering the bounds, plus `(num_rows, num_cols)`. -/
def generate_pathfinding_grid (gp : GeoPrims) (bounds : ℚ × ℚ × ℚ × ℚ)
    (resolution : ℚ) : List GridNode × ℕ × ℕ :=
  let minx := bounds.1
  let miny := bounds.2.1
  let maxx := bounds.2.2.1
  let maxy := bounds.2.2.2
  let center_lat := (miny + maxy) / 2
  let meters_per_degree_lon := METERS_PER_DEGREE_LAT * gp.cosr center_lat
  let dx := resolution / meters_per_degree_lon
  let dy := resolution / METERS_PER_DEGREE_LAT
  let x_coords := arangeQ minx maxx dx
  let y_coords := arangeQ miny maxy dy
  let num_rows := y_coords.length
  let num_cols := x_coords.length
  let nodes := (y_coords.enum.map (fun ry =>
    x_coords.enum.map (fun cx =>
      ({ x := cx.2, y := ry.2, row := ry.1, col := cx.1 } : GridNode)))).flatten
  (nodes, num_rows, num_cols)

/-- Model of `load_elevation_data(nodes, dem_path)`: rasterio sampling is abstracted
into `dem : Option (ℚ → ℚ → Option ℚ)`; `none` models `dem_path = None`
(flat fallback, elevation 0 everywhere), `some f` models sampling, where
`f x y = none` models a nodata cell (elevation left absent). -/
def load_elevation_data (dem : Option (ℚ → ℚ → Option ℚ))
    (nodes : List GridNode) : List GridNode :=
  match dem with
  | none => nodes.map (fun n => { n with elevation := some 0 })
  | some f => nodes.map (fun n => { n with elevation := f n.x n.y })

/-- Model of `mark_exclusion_zones(nodes, exclusion_zones, buffer_distance)`: the
shapely pipeline (per-zone buffering by `meters_to_degrees buffer_distance`
at the zone centroid latitude, then `unary_union`) is abstracted into the
membership predicate `inRegion` of the merged buffered region; a node whose
point the region contains is marked invalid.  The empty-zone early return
corresponds to `inRegion = fun _ _ => false`. -/
def mark_exclusion_zones (inRegion : ℚ → ℚ → Bool)
    (nodes : List GridNode) : List GridNode :=
  nodes.map (fun node =>
    if inRegion node.x node.y then { node with is_valid := false } else node)

/-- A vertex of the cost graph with its `pos` and `elevation` attributes. -/
structure GraphNode where
  id : ℕ
  x : ℚ
  y : ℚ
  elevation : ℚ
deriving DecidableEq

/-- A weighted edge of the cost graph with its `weight`, `distance` and
`grade` attributes.  The edge list records every `G.add_edge` call (each
undirected lattice edge is added once from each endpoint). -/
structure Edge where
  u : ℕ
  v : ℕ
  weight : ℚ
  distance : ℚ
  grade : ℚ
deriving DecidableEq

/-- The `networkx.Graph` built by `build_graph`. -/
structure CostGraph where
  nodes : List GraphNode
  edges : List Edge
deriving DecidableEq

/-- The 8-connectivity direction list of `build_graph`. -/
def directions : List (ℤ × ℤ) :=
  [(-1, 0), (1, 0), (0, -1), (0, 1), (-1, -1), (-1, 1), (1, -1), (1, 1)]

/-- The edge weight assignment of `build_graph` (the
`if optimization_criteria == ...` chain). -/
def edgeWeight (optimization_criteria : String) (distance grade : ℚ) : ℚ :=
  if optimization_criteria = "minimal_length" then distance
  else if optimization_criteria = "minimal_earthwork" then distance * (1 + grade / 5)
  else if optimization_criteria = "minimal_grade" then distance * (1 + (grade / 2) ^ 2)
  else distance * (1 + grade / 10)

/-- Model of `build_graph(nodes, num_rows, num_cols, max_grade, optimization_criteria)`:
adds a vertex for every valid node with elevation, then for every node and
each of its 8 lattice neighbours that is valid, sampled and a graph vertex,
computes distance and grade, drops the edge when `grade > max_grade` and
otherwise records it with the policy-selected weight. -/
def build_graph (gp : GeoPrims) (nodes : List GridNode) (num_rows num_cols : ℕ)
    (max_grade : ℚ) (optimization_criteria : String) : CostGraph :=
  let gnodes : List GraphNode := nodes.filterMap (fun n =>
    match n.elevation, n.is_valid with
    | some e, true => some ⟨n.row * num_cols + n.col, n.x, n.y, e⟩
    | _, _ => none)
  let gnodeIds := gnodes.map (fun gn => gn.id)
  let edges : List Edge := (nodes.map (fun node =>
    match node.elevation, node.is_valid with
    | some e, true =>
      let idx1 := node.row * num_cols + node.col
      directions.filterMap (fun d =>
        let new_row : ℤ := (node.row : ℤ) + d.1
        let new_col : ℤ := (node.col : ℤ) + d.2
        if 0 ≤ new_row ∧ new_row < (num_rows : ℤ) ∧ 0 ≤ new_col ∧
            new_col < (num_cols : ℤ) then
          let neighbor_idx := (new_row * (num_cols : ℤ) + new_col).toNat
          match nodes[neighbor_idx]? with
          | none => none
          | some neighbor =>
            match neighbor.elevation, neighbor.is_valid with
            | some ne, true =>
              if neighbor_idx ∈ gnodeIds then
                let distance := haversine_distance gp node.x node.y neighbor.x neighbor.y
                let grade := calculate_grade gp node.x node.y e neighbor.x neighbor.y ne
                if grade > max_grade then none
                else some ⟨idx1, neighbor_idx,
                  edgeWeight optimization_criteria distance grade, distance, grade⟩
              else none
            | _, _ => none
        else none)
    | _, _ => [])).flatten
  ⟨gnodes, edges⟩

/-- Model of `find_nearest_node(G, nodes, num_cols, target_lon, target_lat)`:
linear scan over valid sampled nodes that are graph vertices, keeping the
first strict minimizer of distance (`min_dist` starts at `inf`, modelled by
`none`). -/
def find_nearest_node (gp : GeoPrims) (G : CostGraph) (nodes : List GridNode)
    (num_cols : ℕ) (target_lon target_lat : ℚ) : Option ℕ :=
  let ids := G.nodes.map (fun gn => gn.id)
  (nodes.foldl (fun acc node =>
    match node.elevation, node.is_valid with
    | some _, true =>
      let idx := node.row * num_cols + node.col
      if idx ∈ ids then
        let dist := haversine_distance gp target_lon target_lat node.x node.y
        match acc.1 with
        | none => (some dist, some idx)
        | some m => if dist < m then (some dist, some idx) else acc
      else acc
    | _, _ => acc) ((none : Option ℚ), (none : Option ℕ))).2

/-- Adjacency of the (undirected) cost graph. -/
def CostGraph.adj (G : CostGraph) (u : ℕ) : List ℕ :=
  G.edges.filterMap (fun e =>
    if e.u = u then some e.v else if e.v = u then some e.u else none)

/-- Fuel-bounded breadth-first path search used to model
`networkx.astar_path`: the queue holds reversed partial paths. -/
def bfsPaths (adj : ℕ → List ℕ) (target : ℕ) :
    ℕ → List (List ℕ) → List ℕ → Option (List ℕ)
  | 0, _, _ => none
  | _ + 1, [], _ => none
  | fuel + 1, p :: queue, visited =>
    match p with
    | [] => bfsPaths adj target fuel queue visited
    | u :: _ =>
      if u = target then some p.reverse
      else
        let nbrs := (adj u).filter (fun v => v ∉ visited)
        bfsPaths adj target fuel (queue ++ nbrs.map (fun v => v :: p))
          (visited ++ nbrs)

/-- Model of `astar_path(G, source, target, nodes, num_cols)`: modelled by its
contract — `none` when an endpoint is not a graph vertex or no path exists,
`some` path otherwise (the claims proved below do not depend on the returned
path being the least-cost one). -/
def astar_path (G : CostGraph) (source target : ℕ) : Option (List ℕ) :=
  let ids := G.nodes.map (fun gn => gn.id)
  if source ∈ ids ∧ target ∈ ids then
    bfsPaths (G.adj) target
      ((G.nodes.length + 1) * (G.edges.length + 1) + 1) [[source]] [source]
  else none

/-- A `[lon, lat, elev]` coordinate triple. -/
structure C3 where
  x : ℚ
  y : ℚ
  z : ℚ
deriving DecidableEq

/-- Model of `extract_path_coordinates(path, G)`. -/
def extract_path_coordinates (path : List ℕ) (G : CostGraph) : List C3 :=
  path.map (fun idx =>
    match G.nodes.find? (fun gn => gn.id = idx) with
    | some gn => ⟨gn.x, gn.y, gn.elevation⟩
    | none => ⟨0, 0, 0⟩)

/-- Mean of a rational list (`np.mean`); only used on nonempty lists. -/
def ratMean (l : List ℚ) : ℚ := l.sum / (l.length : ℚ)

/-- Maximum of a rational list (`np.max`); only used on nonempty lists. -/
def ratMax (l : List ℚ) : ℚ :=
  match l with
  | [] => 0
  | x :: xs => xs.foldl max x

/-- Model of `calculate_segment_metrics(coords)`:
`(length_m, avg_grade, max_grade, cut_volume, fill_volume)`; grades are only
collected for consecutive pairs more than 1 cm apart, and the earthwork
fields are always 0. -/
def calculate_segment_metrics (gp : GeoPrims) (coords : List C3) :
    ℚ × ℚ × ℚ × ℚ × ℚ :=
  if coords.length < 2 then (0, 0, 0, 0, 0)
  else
    let pairs := coords.zip coords.tail
    let total_length := (pairs.map (fun pq =>
      haversine_distance gp pq.1.x pq.1.y pq.2.x pq.2.y)).sum
    let grades := pairs.filterMap (fun pq =>
      if haversine_distance gp pq.1.x pq.1.y pq.2.x pq.2.y > 1/100 then
        some (calculate_grade gp pq.1.x pq.1.y pq.1.z pq.2.x pq.2.y pq.2.z)
      else none)
    let avg_grade := if grades = [] then 0 else ratMean grades
    let max_grade := if grades = [] then 0 else ratMax grades
    (total_length, avg_grade, max_grade, 0, 0)

/-- Squared distance from point `p` to the segment `a`–`b` (the deviation
measure of the Douglas–Peucker simplifier; squared so that it stays in `ℚ`,
compared against the squared tolerance). -/
def devSq (a b p : ℚ × ℚ) : ℚ :=
  let dx := b.1 - a.1
  let dy := b.2 - a.2
  let len2 := dx * dx + dy * dy
  if len2 = 0 then (p.1 - a.1) ^ 2 + (p.2 - a.2) ^ 2
  else
    let t := ((p.1 - a.1) * dx + (p.2 - a.2) * dy) / len2
    let tc := max 0 (min 1 t)
    (p.1 - (a.1 + tc * dx)) ^ 2 + (p.2 - (a.2 + tc * dy)) ^ 2

/-- Selection of the interior point farthest from the chord: first index in
`[1, n-2]` attaining the maximal deviation (`dev`), as in the
Douglas–Peucker scan. -/
def dpPick (dev : ℕ → ℚ) (n : ℕ) : ℕ × ℚ :=
  (List.range' 2 (n - 3)).foldl
    (fun acc i => if dev i > acc.2 then (i, dev i) else acc) (1, dev 1)

/-- The update step of `dpPick`. -/
def dpStep (dev : ℕ → ℚ) (acc : ℕ × ℚ) (i : ℕ) : ℕ × ℚ :=
  if dev i > acc.2 then (i, dev i) else acc

theorem dpPick_eq_foldl (dev : ℕ → ℚ) (n : ℕ) :
    dpPick dev n = (List.range' 2 (n - 3)).foldl (dpStep dev) (1, dev 1) := rfl

/-- Invariant of the `dpPick` fold: the result carries its own deviation,
lies in the scanned range (or is the initial accumulator), dominates every
scanned deviation, strictly dominates every deviation scanned before the
chosen index, and strictly improves on the accumulator whenever it moves. -/
theorem dpStep_foldl_spec (dev : ℕ → ℚ) :
    ∀ (k s : ℕ) (acc : ℕ × ℚ), acc.2 = dev acc.1 → acc.1 < s →
    (((List.range' s k).foldl (dpStep dev) acc).2 =
        dev (((List.range' s k).foldl (dpStep dev) acc).1)) ∧
    (((List.range' s k).foldl (dpStep dev) acc).1 = acc.1 ∨
      (s ≤ ((List.range' s k).foldl (dpStep dev) acc).1 ∧
        ((List.range' s k).foldl (dpStep dev) acc).1 < s + k)) ∧
    acc.2 ≤ ((List.range' s k).foldl (dpStep dev) acc).2 ∧
    (∀ j, s ≤ j → j < s + k →
      dev j ≤ ((List.range' s k).foldl (dpStep dev) acc).2) ∧
    (∀ j, s ≤ j → j < ((List.range' s k).foldl (dpStep dev) acc).1 →
      dev j < ((List.range' s k).foldl (dpStep dev) acc).2) ∧
    (((List.range' s k).foldl (dpStep dev) acc).1 ≠ acc.1 →
      acc.2 < ((List.range' s k).foldl (dpStep dev) acc).2) := by
  intro k
  induction k with
  | zero =>
    intro s acc h1 h2
    have hfold : (List.range' s 0).foldl (dpStep dev) acc = acc := rfl
    rw [hfold]
    refine ⟨h1, Or.inl rfl, le_refl _, ?_, ?_, ?_⟩
    · intro j hj hj2; omega
    · intro j hj hj2; omega
    · intro h; exact absurd rfl h
  | succ k ih =>
    intro s acc h1 h2
    rw [List.range'_succ, List.foldl_cons]
    by_cases hcase : dev s > acc.2
    · have hstep : dpStep dev acc s = (s, dev s) := by
        simp [dpStep, hcase]
      rw [hstep]
      obtain ⟨i1, i2, i3, i4, i5, i6⟩ :=
        ih (s + 1) (s, dev s) rfl (Nat.lt_succ_self s)
      refine ⟨i1, ?_, ?_, ?_, ?_, ?_⟩
      · rcases i2 with h | h
        · exact Or.inr ⟨by omega, by omega⟩
        · exact Or.inr ⟨by omega, by omega⟩
      · exact le_of_lt (lt_of_lt_of_le hcase i3)
      · intro j hj hjk
        rcases Nat.eq_or_lt_of_le hj with h | h
        · subst h; exact i3
        · exact i4 j h (by omega)
      · intro j hj hjlt
        rcases Nat.eq_or_lt_of_le hj with h | h
        · subst h
          have hne : ((List.range' (s+1) k).foldl (dpStep dev) (s, dev s)).1 ≠ s := by
            omega
          exact i6 hne
        · exact i5 j h hjlt
      · intro _
        exact lt_of_lt_of_le hcase i3
    · have hstep : dpStep dev acc s = acc := by
        simp [dpStep, hcase]
      rw [hstep]
      obtain ⟨i1, i2, i3, i4, i5, i6⟩ := ih (s + 1) acc h1 (by omega)
      refine ⟨i1, ?_, i3, ?_, ?_, i6⟩
      · rcases i2 with h | h
        · exact Or.inl h
        · exact Or.inr ⟨by omega, by omega⟩
      · intro j hj hjk
        rcases Nat.eq_or_lt_of_le hj with h | h
        · subst h
          push_neg at hcase
          exact le_trans hcase i3
        · exact i4 j h (by omega)
      · intro j hj hjlt
        rcases Nat.eq_or_lt_of_le hj with h | h
        · subst h
          push_neg at hcase
          have hne : ((List.range' (s+1) k).foldl (dpStep dev) acc).1 ≠ acc.1 := by
            omega
          exact lt_of_le_of_lt hcase (i6 hne)
        · exact i5 j h hjlt

/-- Consequences of `dpStep_foldl_spec` for `dpPick`: the chosen index is
interior (`1 ≤ i ≤ n - 2`), carries its own deviation, dominates every
interior deviation, and strictly dominates every interior deviation at a
smaller index. -/
theorem dpPick_spec (dev : ℕ → ℚ) (n : ℕ) (hn : 3 ≤ n) :
    (dpPick dev n).2 = dev (dpPick dev n).1 ∧
    (1 ≤ (dpPick dev n).1 ∧ (dpPick dev n).1 + 2 ≤ n) ∧
    (∀ j, 1 ≤ j → j + 1 < n → dev j ≤ (dpPick dev n).2) ∧
    (∀ j, 1 ≤ j → j < (dpPick dev n).1 → dev j < (dpPick dev n).2) := by
  have h := dpStep_foldl_spec dev (n - 3) 2 (1, dev 1) rfl (by omega)
  rw [dpPick_eq_foldl]
  obtain ⟨i1, i2, i3, i4, i5, i6⟩ := h
  refine ⟨i1, ?_, ?_, ?_⟩
  · rcases i2 with h | h
    · rw [h]; omega
    · omega
  · intro j hj hjn
    rcases Nat.eq_or_lt_of_le hj with h | h
    · subst h; exact i3
    · exact i4 j h (by omega)
  · intro j hj hjlt
    rcases Nat.eq_or_lt_of_le hj with h | h
    · subst h
      have hne : ((List.range' 2 (n - 3)).foldl (dpStep dev)
          (1, dev 1)).1 ≠ (1, dev 1).1 := by
        simp only []
        omega
      exact i6 hne
    · exact i5 j h hjlt

/-- Interior bound on the index chosen by `dpPick`. -/
theorem dpPick_bounds (dev : ℕ → ℚ) (n : ℕ) (hn : 3 ≤ n) :
    1 ≤ (dpPick dev n).1 ∧ (dpPick dev n).1 + 2 ≤ n :=
  (dpPick_spec dev n hn).2.1

/-- Douglas–Peucker polyline simplification (the model of shapely
`LineString.simplify`): with fewer than 3 points the polyline is returned
unchanged; otherwise the interior point farthest from the chord is found,
and if its squared deviation exceeds `tolSq` the two halves are simplified
recursively and glued at the split point, else only the endpoints remain. -/
def dpDev (pts : List (ℚ × ℚ)) (i : ℕ) : ℚ :=
  devSq (pts.headD (0, 0)) (pts.getLastD (0, 0)) (pts.getD i (0, 0))

/-- The Douglas–Peucker recursion proper (see the comment above `dpDev`). -/
def dpRec (tolSq : ℚ) (pts : List (ℚ × ℚ)) : List (ℚ × ℚ) :=
  if h : pts.length < 3 then pts
  else
    if (dpPick (dpDev pts) pts.length).2 > tolSq then
      dpRec tolSq (pts.take ((dpPick (dpDev pts) pts.length).1 + 1)) ++
      (dpRec tolSq (pts.drop ((dpPick (dpDev pts) pts.length).1))).tail
    else [pts.headD (0, 0), pts.getLastD (0, 0)]
termination_by pts.length
decreasing_by
  · have hm := dpPick_bounds (dpDev pts) pts.length (by omega)
    simp only [List.length_take]
    omega
  · have hm := dpPick_bounds (dpDev pts) pts.length (by omega)
    simp only [List.length_drop]
    omega

/-- The elevation-reattachment scan of `simplify_path`: first strict
minimizer of the L1 coordinate difference over the original vertices
(`min_dist` starts at `inf`, modelled by `none`; `best_elev` starts at the
first original vertex's elevation). -/
def reattachStep (sx sy : ℚ) (acc : Option ℚ × ℚ) (c : C3) : Option ℚ × ℚ :=
  let dist := |c.x - sx| + |c.y - sy|
  match acc.1 with
  | none => (some dist, c.z)
  | some m => if dist < m then (some dist, c.z) else acc

def reattachElev (coords : List C3) (sx sy : ℚ) : ℚ :=
  (coords.foldl (reattachStep sx sy)
    ((none : Option ℚ), (coords.headD ⟨0, 0, 0⟩).z)).2

/-- Model of `simplify_path(coords, tolerance_m)`: under 3 vertices the path is
returned unchanged; otherwise the 2D projection is Douglas–Peucker
simplified with the tolerance converted to degrees at the mean of the first
and last latitudes, and each retained vertex gets the elevation of the
L1-nearest original vertex. -/
def simplify_path (gp : GeoPrims) (coords : List C3) (tolerance_m : ℚ) :
    List C3 :=
  if coords.length < 3 then coords
  else
    let line := coords.map (fun c => (c.x, c.y))
    let center_lat := ((coords.headD ⟨0, 0, 0⟩).y + (coords.getLastD ⟨0, 0, 0⟩).y) / 2
    let tolerance_deg := meters_to_degrees gp tolerance_m center_lat
    let simplified := dpRec (tolerance_deg * tolerance_deg) line
    simplified.map (fun s => (⟨s.1, s.2, reattachElev coords s.1 s.2⟩ : C3))

/-- The data handed to shapely's `buffer` by `create_road_polygon`
(the 2D centerline and the half-width in degrees); the buffering itself is
done by the GEOS library and is kept opaque. -/
structure RoadPolygon where
  centerline : List (ℚ × ℚ)
  half_width_deg : ℚ
deriving DecidableEq

/-- Model of `create_road_polygon(centerline, road_width)`. -/
def create_road_polygon (gp : GeoPrims) (centerline : List C3)
    (road_width : ℚ) : Option RoadPolygon :=
  if centerline.length < 2 then none
  else
    let center_lat := ((centerline.headD ⟨0, 0, 0⟩).y +
      (centerline.getLastD ⟨0, 0, 0⟩).y) / 2
    some ⟨centerline.map (fun c => (c.x, c.y)),
      meters_to_degrees gp (road_width / 2) center_lat⟩

/-- First strict minimizer of `f` in a list (`none` on the empty list). -/
def argminFirst (f : α → ℚ) : List α → Option α
  | [] => none
  | x :: xs => some (xs.foldl (fun b y => if f y < f b then y else b) x)

/-- Candidate crossing edges of Prim's algorithm: pairs of a tree vertex and
a non-tree vertex below `n`. -/
def primCandidates (n : ℕ) (tree : List ℕ) : List (ℕ × ℕ) :=
  tree.flatMap (fun i =>
    ((List.range n).filter (fun j => j ∉ tree)).map (fun j => (i, j)))

/-- One Prim step: minimum-weight crossing edge, if any. -/
def primPick (w : ℕ → ℕ → ℚ) (n : ℕ) (tree : List ℕ) : Option (ℕ × ℕ) :=
  argminFirst (fun p => w p.1 p.2) (primCandidates n tree)

/-- Prim iteration: `k` rounds, each adding the chosen crossing edge. -/
def primAux (w : ℕ → ℕ → ℚ) (n : ℕ) :
    ℕ → List ℕ → List (ℕ × ℕ) → List (ℕ × ℕ)
  | 0, _, acc => acc.reverse
  | k + 1, tree, acc =>
    match primPick w n tree with
    | none => acc.reverse
    | some ij => primAux w n k (tree ++ [ij.2]) (ij :: acc)

/-- Minimum spanning tree of the complete weighted graph on `{0, …, n-1}`
(the model of `networkx.minimum_spanning_tree` applied to the complete asset
graph; the proved claims depend only on the result being a spanning tree, so
a deterministic Prim construction is used). -/
def minimum_spanning_tree (w : ℕ → ℕ → ℚ) (n : ℕ) : List (ℕ × ℕ) :=
  if n < 2 then [] else primAux w n (n - 1) [0] []

/-- Model of `build_minimum_spanning_tree(asset_positions, G, nodes, num_cols)`:
returns no edges for fewer than 2 assets, otherwise the MST edges of the
complete graph over the assets weighted by pairwise great-circle distance.
(The nearest-graph-node lookup the source performs per asset does not affect
the returned edges and is kept as a dead binding.) -/
def build_minimum_spanning_tree (gp : GeoPrims)
    (asset_positions : List (ℚ × ℚ)) (G : CostGraph) (nodes : List GridNode)
    (num_cols : ℕ) : List (ℕ × ℕ) :=
  let n := asset_positions.length
  if n < 2 then []
  else
    let _asset_nodes := asset_positions.map (fun p =>
      find_nearest_node gp G nodes num_cols p.1 p.2)
    minimum_spanning_tree (fun i j =>
      haversine_distance gp (asset_positions.getD i (0, 0)).1
        (asset_positions.getD i (0, 0)).2 (asset_positions.getD j (0, 0)).1
        (asset_positions.getD j (0, 0)).2) n

/-- The nearest-asset scan of `generate_road_network`: index of the asset at
minimal great-circle distance from the entry point (`min_dist` starts at
`inf`, modelled by `none`; `nearest_asset` starts at 0; first strict
minimizer wins). -/
def nearStep (gp : GeoPrims) (entry : ℚ × ℚ) (acc : Option ℚ × ℕ)
    (p : ℕ × ℚ × ℚ) : Option ℚ × ℕ :=
  let dist := haversine_distance gp entry.1 entry.2 p.2.1 p.2.2
  match acc.1 with
  | none => (some dist, p.1)
  | some m => if dist < m then (some dist, p.1) else acc

def nearestAssetIdx (gp : GeoPrims) (entry : ℚ × ℚ)
    (assets : List (ℚ × ℚ)) : ℕ :=
  (assets.enum.foldl (nearStep gp entry) ((none : Option ℚ), 0)).2

/-- The topology-selection portion of `generate_road_network` (steps around
`build_minimum_spanning_tree`): the MST edges over the assets, plus — when an
entry point is supplied and the asset list is nonempty — one extra edge from
the entry point (appended as index `N`) to the nearest asset.  Returns the
edge list and the extended position list. -/
def select_topology (gp : GeoPrims) (asset_positions : List (ℚ × ℚ))
    (entry_point : Option (ℚ × ℚ)) (G : CostGraph) (nodes : List GridNode)
    (num_cols : ℕ) : List (ℕ × ℕ) × List (ℚ × ℚ) :=
  let mst_edges := build_minimum_spanning_tree gp asset_positions G nodes num_cols
  match entry_point with
  | some entry =>
    if asset_positions ≠ [] then
      let nearest_asset := nearestAssetIdx gp entry asset_positions
      let entry_idx := asset_positions.length
      (mst_edges ++ [(entry_idx, nearest_asset)], asset_positions ++ [entry])
    else (mst_edges, asset_positions)
  | none => (mst_edges, asset_positions)

/-- Model of `RoadSegment` dataclass. -/
structure RoadSegment where
  id : ℕ
  from_node : ℕ
  to_node : ℕ
  coordinates : List C3
  length_m : ℚ := 0
  avg_grade : ℚ := 0
  max_grade : ℚ := 0
  cut_volume : ℚ := 0
  fill_volume : ℚ := 0
deriving DecidableEq

/-- Model of `RoadNetworkResult` dataclass.  `road_details` keeps the segment list of
the `road_details` dict; `processing_time` and `memory_peak_mb` are wall-time
and memory measurements outside the model and are carried as 0. -/
structure RoadNetworkResult where
  success : Bool
  road_centerlines : Option (List (List (ℚ × ℚ))) := none
  road_polygons : Option (List RoadPolygon) := none
  road_details : List RoadSegment := []
  total_road_length : ℚ := 0
  total_segments : ℕ := 0
  total_intersections : ℕ := 0
  avg_grade : ℚ := 0
  max_grade_actual : ℚ := 0
  grade_compliant : Bool := true
  total_cut_volume : ℚ := 0
  total_fill_volume : ℚ := 0
  net_earthwork_volume : ℚ := 0
  assets_connected : ℕ := 0
  connectivity_rate : ℚ := 0
  processing_time : ℚ := 0
  memory_peak_mb : ℚ := 0
  algorithm_iterations : ℕ := 0
  pathfinding_algorithm : String := "astar"
  error_message : Option String := none
deriving DecidableEq

/-- Accumulator of the per-topology-edge routing loop of
`generate_road_network`. -/
structure LoopState where
  segments : List RoadSegment := []
  all_centerlines : List (List (ℚ × ℚ)) := []
  road_polygons : List RoadPolygon := []
  segment_id : ℕ := 0
  total_length : ℚ := 0
  all_grades : List ℚ := []
  connected : List ℕ := []
  algorithm_iterations : ℕ := 0
deriving DecidableEq

/-- Insertion into the `assets_connected_set` (`set.add`). -/
def connInsert (s : List ℕ) (i : ℕ) : List ℕ :=
  if i ∈ s then s else s ++ [i]

/-- One iteration of the routing loop of `generate_road_network`: locate the
nearest graph node to each endpoint (skip the edge when either is missing),
run the path search (skip when no path), then extract, simplify, measure and
record the segment. -/
def routeEdge (gp : GeoPrims) (G : CostGraph) (nodes : List GridNode)
    (num_cols : ℕ) (road_width : ℚ) (all_positions : List (ℚ × ℚ))
    (st : LoopState) (e : ℕ × ℕ) : LoopState :=
  let p1 := all_positions.getD e.1 (0, 0)
  let p2 := all_positions.getD e.2 (0, 0)
  match find_nearest_node gp G nodes num_cols p1.1 p1.2,
      find_nearest_node gp G nodes num_cols p2.1 p2.2 with
  | some node1, some node2 =>
    let path := astar_path G node1 node2
    let st := { st with algorithm_iterations := st.algorithm_iterations + 1 }
    match path with
    | none => st
    | some path =>
      let coords := simplify_path gp (extract_path_coordinates path G) 2
      let m := calculate_segment_metrics gp coords
      let segment : RoadSegment :=
        { id := st.segment_id, from_node := e.1, to_node := e.2,
          coordinates := coords, length_m := m.1, avg_grade := m.2.1,
          max_grade := m.2.2.1, cut_volume := m.2.2.2.1,
          fill_volume := m.2.2.2.2 }
      { st with
        segments := st.segments ++ [segment]
        total_length := st.total_length + m.1
        all_grades := st.all_grades ++ [m.2.1] ++
          (if m.2.2.1 > 0 then [m.2.2.1] else [])
        connected := connInsert (connInsert st.connected e.1) e.2
        all_centerlines := st.all_centerlines ++
          [coords.map (fun c => (c.1, c.2))]
        road_polygons := st.road_polygons ++
          (match create_road_polygon gp coords road_width with
           | some poly => [poly]
           | none => [])
        segment_id := st.segment_id + 1 }
  | _, _ => st

/-- The progress percentage of `ProgressTracker.update`:
`int((step / 6) * 100)` (truncation of a non-negative value = floor). -/
def progressPercent (step : ℕ) : ℤ := ⌊(step : ℚ) / 6 * 100⌋

/-- Steps 1–4 of `generate_road_network` (bounds with 10% padding, grid
generation, elevation loading, exclusion masking, graph building), exposed
as a function so the statements below can refer to the graph the pipeline
builds.  Returns `(masked nodes, num_cols, cost graph)`. -/
def pipelinePrep (gp : GeoPrims) (asset_positions : List (ℚ × ℚ))
    (entry_point : Option (ℚ × ℚ)) (max_grade grid_resolution : ℚ)
    (optimization_criteria : String) (dem : Option (ℚ → ℚ → Option ℚ))
    (exclusionRegion : ℚ → ℚ → Bool) :
    List GridNode × ℕ × CostGraph :=
  let all_points := asset_positions ++ entry_point.toList
  let lons := all_points.map (fun p => p.1)
  let lats := all_points.map (fun p => p.2)
  let maxLon := ratMax lons
  let minLon := -ratMax (lons.map (fun x => -x))
  let maxLat := ratMax lats
  let minLat := -ratMax (lats.map (fun x => -x))
  let padding := max (1/1000) ((maxLon - minLon) * (1/10))
  let bounds := (minLon - padding, minLat - padding,
    maxLon + padding, maxLat + padding)
  let grid := generate_pathfinding_grid gp bounds grid_resolution
  let num_rows := grid.2.1
  let num_cols := grid.2.2
  let nodes := load_elevation_data dem grid.1
  let nodes := mark_exclusion_zones exclusionRegion nodes
  let G := build_graph gp nodes num_rows num_cols max_grade
    optimization_criteria
  (nodes, num_cols, G)

/-- Model of `generate_road_network(...)`, returning the result together with the
trace of `(percent, stage-name)` progress-callback invocations.  The DEM and
the merged exclusion region are abstracted as in `load_elevation_data` and
`mark_exclusion_zones`; `min_curve_radius` and `advanced_settings` are
accepted and unused, as in the source. -/
def generate_road_network_full (gp : GeoPrims)
    (asset_positions : List (ℚ × ℚ)) (entry_point : Option (ℚ × ℚ))
    (road_width max_grade min_curve_radius grid_resolution : ℚ)
    (optimization_criteria : String)
    (dem : Option (ℚ → ℚ → Option ℚ)) (exclusionRegion : ℚ → ℚ → Bool) :
    RoadNetworkResult × List (ℤ × String) :=
  let _ := min_curve_radius
  if asset_positions.length < 1 then
    ({ success := false, error_message := some "No assets to connect" }, [])
  else
    let trace1 := [(progressPercent 1, "Generating pathfinding grid")]
    let prep := pipelinePrep gp asset_positions entry_point max_grade
      grid_resolution optimization_criteria dem exclusionRegion
    let trace2 := trace1 ++ [(progressPercent 2, "Loading elevation data")]
    let nodes := prep.1
    let trace3 := trace2 ++ [(progressPercent 3, "Processing exclusion zones")]
    let num_cols := prep.2.1
    let trace4 := trace3 ++ [(progressPercent 4, "Building pathfinding graph")]
    let G := prep.2.2
    if G.nodes.length = 0 then
      ({ success := false,
         error_message := some "No valid path nodes (check exclusions/terrain)" },
       trace4)
    else
      let trace5 := trace4 ++ [(progressPercent 5, "Computing road paths")]
      let topo := select_topology gp asset_positions entry_point G nodes num_cols
      let st := topo.1.foldl
        (routeEdge gp G nodes num_cols road_width topo.2) {}
      let trace6 := trace5 ++ [(progressPercent 6, "Compiling results")]
      let avg_grade_overall := if st.all_grades = [] then 0
        else ratMean st.all_grades
      let max_grade_overall := if st.all_grades = [] then 0
        else ratMax st.all_grades
      let num_assets_connected :=
        (st.connected.filter (fun i => i < asset_positions.length)).length
      let connectivity_rate := if asset_positions ≠ [] then
        (num_assets_connected : ℚ) / (asset_positions.length : ℚ) * 100 else 0
      ({ success := true
         road_centerlines := some st.all_centerlines
         road_polygons := if st.road_polygons = [] then none
           else some st.road_polygons
         road_details := st.segments
         total_road_length := st.total_length
         total_segments := st.segments.length
         total_intersections := 0
         avg_grade := avg_grade_overall
         max_grade_actual := max_grade_overall
         grade_compliant := decide (max_grade_overall ≤ max_grade)
         total_cut_volume := (st.segments.map (fun s => s.cut_volume)).sum
         total_fill_volume := (st.segments.map (fun s => s.fill_volume)).sum
         net_earthwork_volume := (st.segments.map (fun s => s.cut_volume)).sum -
           (st.segments.map (fun s => s.fill_volume)).sum
         assets_connected := num_assets_connected
         connectivity_rate := connectivity_rate
         algorithm_iterations := st.algorithm_iterations
         pathfinding_algorithm := "astar" }, trace6)

/-- Model of `generate_road_network` proper: the result with the callback trace
dropped. -/
def generate_road_network (gp : GeoPrims)
    (asset_positions : List (ℚ × ℚ)) (entry_point : Option (ℚ × ℚ))
    (road_width max_grade min_curve_radius grid_resolution : ℚ)
    (optimization_criteria : String)
    (dem : Option (ℚ → ℚ → Option ℚ)) (exclusionRegion : ℚ → ℚ → Bool) :
    RoadNetworkResult :=
  (generate_road_network_full gp asset_positions entry_point road_width
    max_grade min_curve_radius grid_resolution optimization_criteria dem
    exclusionRegion).1

/-- Model of `calculate_grade` never returns a negative value. -/
theorem calculate_grade_nonneg (gp : GeoPrims)
    (lon1 lat1 elev1 lon2 lat2 elev2 : ℚ) :
    0 ≤ calculate_grade gp lon1 lat1 elev1 lon2 lat2 elev2 := by
  simp only [calculate_grade]
  split
  · exact le_refl 0
  · rename_i hge
    push_neg at hge
    have hpos : (0 : ℚ) < haversine_distance gp lon1 lat1 lon2 lat2 :=
      lt_of_lt_of_le (by norm_num) hge
    have h1 : (0 : ℚ) ≤ |elev2 - elev1| / haversine_distance gp lon1 lat1 lon2 lat2 :=
      div_nonneg (abs_nonneg _) (le_of_lt hpos)
    exact mul_nonneg h1 (by norm_num)

/-- Every edge recorded by `build_graph` satisfies the grade constraint,
has non-negative grade, and carries the policy weight computed from its own
distance and grade. -/
theorem build_graph_edge_spec (gp : GeoPrims) (nodes : List GridNode)
    (num_rows num_cols : ℕ) (max_grade : ℚ) (crit : String) :
    ∀ e ∈ (build_graph gp nodes num_rows num_cols max_grade crit).edges,
      e.grade ≤ max_grade ∧ 0 ≤ e.grade ∧
      e.weight = edgeWeight crit e.distance e.grade := by
  intro e he
  simp only [build_graph, List.mem_flatten, List.mem_map] at he
  obtain ⟨l, ⟨node, hnode, hl⟩, hel⟩ := he
  rw [← hl] at hel
  clear hl
  rcases hev : node.elevation with _ | ev
  · rw [hev] at hel
    simp at hel
  · rcases hvv : node.is_valid with _ | _
    · rw [hev, hvv] at hel
      simp at hel
    · rw [hev, hvv] at hel
      simp only [List.mem_filterMap] at hel
      obtain ⟨d, _, hfd⟩ := hel
      split at hfd
      · -- in-bounds branch
        rcases hidx : nodes[((((node.row : ℤ) + d.1) * (num_cols : ℤ) +
            ((node.col : ℤ) + d.2)).toNat)]? with _ | neighbor
        · rw [hidx] at hfd
          simp at hfd
        · rw [hidx] at hfd
          dsimp only [] at hfd
          rcases hne : neighbor.elevation with _ | ne
          · rw [hne] at hfd
            simp at hfd
          · rcases hnv : neighbor.is_valid with _ | _
            · rw [hne, hnv] at hfd
              simp at hfd
            · rw [hne, hnv] at hfd
              simp only [] at hfd
              split at hfd
              · split at hfd
                · exact absurd hfd (by simp)
                · rename_i hgrade
                  push_neg at hgrade
                  have he' := Option.some.inj hfd
                  subst he'
                  refine ⟨hgrade, calculate_grade_nonneg gp _ _ _ _ _ _, rfl⟩
              · exact absurd hfd (by simp)
      · exact absurd hfd (by simp)

/-- C1: every edge `(u, v)` present in the cost graph built by `build_graph`
satisfies `grade(u, v) ≤ max_grade`; an over-grade candidate edge is omitted
altogether (so no recorded edge carries a grade above the limit), for every
grid, limit and optimization policy. -/
theorem C1_grade_constraint (gp : GeoPrims) (nodes : List GridNode)
    (num_rows num_cols : ℕ) (max_grade : ℚ) (crit : String) :
    ∀ e ∈ (build_graph gp nodes num_rows num_cols max_grade crit).edges,
      e.grade ≤ max_grade := by
  intro e he
  exact (build_graph_edge_spec gp nodes num_rows num_cols max_grade crit e he).1

/-- C4: each recorded edge's weight equals the selected policy formula of
its distance `d` and grade `g`: `d` for `minimal_length`, `d (1 + g/5)` for
`minimal_earthwork`, `d (1 + (g/2)²)` for `minimal_grade`, and
`d (1 + g/10)` for `balanced`. -/
theorem C4_weight_formulas (gp : GeoPrims) (nodes : List GridNode)
    (num_rows num_cols : ℕ) (max_grade : ℚ) (crit : String) :
    ∀ e ∈ (build_graph gp nodes num_rows num_cols max_grade crit).edges,
      (crit = "minimal_length" → e.weight = e.distance) ∧
      (crit = "minimal_earthwork" →
        e.weight = e.distance * (1 + e.grade / 5)) ∧
      (crit = "minimal_grade" →
        e.weight = e.distance * (1 + (e.grade / 2) ^ 2)) ∧
      (crit = "balanced" → e.weight = e.distance * (1 + e.grade / 10)) := by
  intro e he
  have h := (build_graph_edge_spec gp nodes num_rows num_cols max_grade crit e he).2.2
  refine ⟨?_, ?_, ?_, ?_⟩ <;> intro hc <;> subst hc <;>
    simpa [edgeWeight] using h

/-- C5: every recorded edge has non-negative grade; its weight is at least
its distance, and strictly positive as soon as the distance is (all four
policies multiply the distance by a factor ≥ 1). -/
theorem C5_weight_dominates_distance (gp : GeoPrims) (nodes : List GridNode)
    (num_rows num_cols : ℕ) (max_grade : ℚ) (crit : String) :
    ∀ e ∈ (build_graph gp nodes num_rows num_cols max_grade crit).edges,
      0 ≤ e.grade ∧ (0 ≤ e.distance → e.distance ≤ e.weight) ∧
      (0 < e.distance → 0 < e.weight) := by
  intro e he
  obtain ⟨-, hg, hw⟩ := build_graph_edge_spec gp nodes num_rows num_cols
    max_grade crit e he
  have hfac : (1 : ℚ) ≤ 1 + e.grade / 5 ∧ (1 : ℚ) ≤ 1 + (e.grade / 2) ^ 2 ∧
      (1 : ℚ) ≤ 1 + e.grade / 10 := by
    refine ⟨?_, ?_, ?_⟩ <;> nlinarith [sq_nonneg (e.grade / 2)]
  refine ⟨hg, ?_, ?_⟩
  · intro hd
    rw [hw]
    unfold edgeWeight
    split
    · exact le_refl _
    · split
      · nlinarith [hfac.1]
      · split
        · nlinarith [hfac.2.1]
        · nlinarith [hfac.2.2]
  · intro hd
    rw [hw]
    unfold edgeWeight
    split
    · exact hd
    · split
      · nlinarith [hfac.1]
      · split
        · nlinarith [hfac.2.1]
        · nlinarith [hfac.2.2]

/-- C10: for any `optimization_criteria` other than the three named
policies — arbitrary unrecognized strings included — `build_graph` silently
weights every edge with the balanced formula `distance × (1 + grade/10)`;
no failure is produced. -/
theorem C10_unknown_policy_balanced (gp : GeoPrims) (nodes : List GridNode)
    (num_rows num_cols : ℕ) (max_grade : ℚ) (crit : String)
    (h1 : crit ≠ "minimal_length") (h2 : crit ≠ "minimal_earthwork")
    (h3 : crit ≠ "minimal_grade") :
    ∀ e ∈ (build_graph gp nodes num_rows num_cols max_grade crit).edges,
      e.weight = e.distance * (1 + e.grade / 10) := by
  intro e he
  have h := (build_graph_edge_spec gp nodes num_rows num_cols max_grade
    crit e he).2.2
  rw [h]
  unfold edgeWeight
  rw [if_neg h1, if_neg h2, if_neg h3]

/-- C7: `calculate_grade` is total: it returns exactly 0 whenever the
horizontal distance is below 1 cm (in particular the division is never by a
quantity below 1 cm), returns `|Δelev| / distance × 100` otherwise, and is
always non-negative. -/
theorem C7_calculate_grade_total (gp : GeoPrims)
    (lon1 lat1 elev1 lon2 lat2 elev2 : ℚ) :
    0 ≤ calculate_grade gp lon1 lat1 elev1 lon2 lat2 elev2 ∧
    (haversine_distance gp lon1 lat1 lon2 lat2 < 1/100 →
      calculate_grade gp lon1 lat1 elev1 lon2 lat2 elev2 = 0) ∧
    (¬ haversine_distance gp lon1 lat1 lon2 lat2 < 1/100 →
      calculate_grade gp lon1 lat1 elev1 lon2 lat2 elev2 =
        |elev2 - elev1| / haversine_distance gp lon1 lat1 lon2 lat2 * 100) := by
  refine ⟨calculate_grade_nonneg gp lon1 lat1 elev1 lon2 lat2 elev2, ?_, ?_⟩
  · intro h
    simp only [calculate_grade]
    rw [if_pos h]
  · intro h
    simp only [calculate_grade]
    rw [if_neg h]

/-- C9: `mark_exclusion_zones` only touches validity flags: the node count
is unchanged, every node keeps its position, lattice index and elevation,
and the output validity flag is `false` exactly on nodes inside the merged
region, the original flag otherwise (so a node is never flipped back to
valid). -/
theorem C9_exclusion_mask_frame (inRegion : ℚ → ℚ → Bool)
    (nodes : List GridNode) :
    (mark_exclusion_zones inRegion nodes).length = nodes.length ∧
    ∀ i, i < nodes.length →
      ((mark_exclusion_zones inRegion nodes).getD i ⟨0, 0, 0, 0, none, true⟩).x =
        (nodes.getD i ⟨0, 0, 0, 0, none, true⟩).x ∧
      ((mark_exclusion_zones inRegion nodes).getD i ⟨0, 0, 0, 0, none, true⟩).y =
        (nodes.getD i ⟨0, 0, 0, 0, none, true⟩).y ∧
      ((mark_exclusion_zones inRegion nodes).getD i ⟨0, 0, 0, 0, none, true⟩).row =
        (nodes.getD i ⟨0, 0, 0, 0, none, true⟩).row ∧
      ((mark_exclusion_zones inRegion nodes).getD i ⟨0, 0, 0, 0, none, true⟩).col =
        (nodes.getD i ⟨0, 0, 0, 0, none, true⟩).col ∧
      ((mark_exclusion_zones inRegion nodes).getD i
          ⟨0, 0, 0, 0, none, true⟩).elevation =
        (nodes.getD i ⟨0, 0, 0, 0, none, true⟩).elevation ∧
      ((mark_exclusion_zones inRegion nodes).getD i
          ⟨0, 0, 0, 0, none, true⟩).is_valid =
        (!(inRegion (nodes.getD i ⟨0, 0, 0, 0, none, true⟩).x
            (nodes.getD i ⟨0, 0, 0, 0, none, true⟩).y) &&
          (nodes.getD i ⟨0, 0, 0, 0, none, true⟩).is_valid) := by
  have hlen : (mark_exclusion_zones inRegion nodes).length = nodes.length := by
    simp [mark_exclusion_zones]
  refine ⟨hlen, ?_⟩
  intro i hi
  have hi' : i < (mark_exclusion_zones inRegion nodes).length := by
    rw [hlen]; exact hi
  rw [List.getD_eq_getElem _ _ hi', List.getD_eq_getElem _ _ hi]
  simp only [mark_exclusion_zones, List.getElem_map]
  by_cases hreg : inRegion nodes[i].x nodes[i].y
  · simp [hreg]
  · simp [hreg]

/-- C2: assuming no unexpected exception (the model is total, so there is
none), `generate_road_network` fails exactly when the asset list is empty
(with the "No assets to connect" message) or the built cost graph has zero
vertices; in every other case — including runs where individual topology
edges are skipped because an endpoint has no eligible grid node or the path
search finds no path — the result has `success = true`. -/
theorem C2_success_iff (gp : GeoPrims) (asset_positions : List (ℚ × ℚ))
    (entry_point : Option (ℚ × ℚ))
    (road_width max_grade min_curve_radius grid_resolution : ℚ)
    (optimization_criteria : String) (dem : Option (ℚ → ℚ → Option ℚ))
    (exclusionRegion : ℚ → ℚ → Bool) :
    ((generate_road_network gp asset_positions entry_point road_width
        max_grade min_curve_radius grid_resolution optimization_criteria dem
        exclusionRegion).success = false ↔
      (asset_positions = [] ∨
        (pipelinePrep gp asset_positions entry_point max_grade
          grid_resolution optimization_criteria dem
          exclusionRegion).2.2.nodes.length = 0)) ∧
    (asset_positions = [] →
      (generate_road_network gp asset_positions entry_point road_width
        max_grade min_curve_radius grid_resolution optimization_criteria dem
        exclusionRegion).error_message = some "No assets to connect") := by
  unfold generate_road_network generate_road_network_full
  by_cases hempty : asset_positions.length < 1
  · have h0 : asset_positions = [] := by
      cases asset_positions with
      | nil => rfl
      | cons a l => simp at hempty
    rw [if_pos hempty]
    simp [h0]
  · have h0 : asset_positions ≠ [] := by
      intro h
      rw [h] at hempty
      simp at hempty
    rw [if_neg hempty]
    by_cases hG : (pipelinePrep gp asset_positions entry_point max_grade
        grid_resolution optimization_criteria dem
        exclusionRegion).2.2.nodes.length = 0
    · simp only [hG, if_pos]
      simp [h0, hG]
    · simp only [hG, if_neg]
      simp [h0, hG]

/-- Concrete values of `int((step/6) * 100)` for the six stages. -/
theorem progressPercent_values :
    progressPercent 1 = 16 ∧ progressPercent 2 = 33 ∧ progressPercent 3 = 50 ∧
    progressPercent 4 = 66 ∧ progressPercent 5 = 83 ∧ progressPercent 6 = 100 := by
  refine ⟨?_, ?_, ?_, ?_, ?_, ?_⟩ <;>
    · rw [progressPercent, Int.floor_eq_iff] <;> norm_num

/-- C8 (amended): on every run that reaches result compilation (nonempty
assets, nonzero graph), the progress callback is invoked exactly six times,
once per stage in order, the k-th call receiving `int(k/6 × 100)` — that is
16, 33, 50, 66, 83, 100 — together with the stage name, so the final call
reports 100. -/
theorem C8_progress_trace (gp : GeoPrims) (asset_positions : List (ℚ × ℚ))
    (entry_point : Option (ℚ × ℚ))
    (road_width max_grade min_curve_radius grid_resolution : ℚ)
    (optimization_criteria : String) (dem : Option (ℚ → ℚ → Option ℚ))
    (exclusionRegion : ℚ → ℚ → Bool) (h1 : asset_positions ≠ [])
    (h2 : (pipelinePrep gp asset_positions entry_point max_grade
      grid_resolution optimization_criteria dem
      exclusionRegion).2.2.nodes.length ≠ 0) :
    (generate_road_network_full gp asset_positions entry_point road_width
      max_grade min_curve_radius grid_resolution optimization_criteria dem
      exclusionRegion).2 =
      [(16, "Generating pathfinding grid"), (33, "Loading elevation data"),
       (50, "Processing exclusion zones"), (66, "Building pathfinding graph"),
       (83, "Computing road paths"), (100, "Compiling results")] := by
  have hlen : ¬ asset_positions.length < 1 := by
    cases asset_positions with
    | nil => exact absurd rfl h1
    | cons a l => simp
  obtain ⟨p1, p2, p3, p4, p5, p6⟩ := progressPercent_values
  simp only [generate_road_network_full]
  rw [if_neg hlen, if_neg h2]
  simp [p1, p2, p3, p4, p5, p6]

/-- Concrete geographic primitives for witnesses: taxicab distance in
degree coordinates and a constant cosine. -/
def gpT : GeoPrims where
  hdist := fun lon1 lat1 lon2 lat2 => |lon2 - lon1| + |lat2 - lat1|
  cosr := fun _ => 1

/-- Two concrete assets roughly 0.01° apart on the equator. -/
def assetsT : List (ℚ × ℚ) := [(0, 0), (1/100, 0)]

/-- An exclusion region that contains nothing. -/
def regionEmptyT : ℚ → ℚ → Bool := fun _ _ => false


/-- A concrete 1×2 grid: two valid sampled nodes 0.01° apart. -/
def nodesT : List GridNode :=
  [⟨0, 0, 0, 0, some 0, true⟩, ⟨1/100, 0, 0, 1, some 0, true⟩]

/-- The single lattice edge of the concrete grid (as recorded from node 0). -/
def eT : Edge := ⟨0, 1, 1/100, 1/100, 0⟩

/-- Witness for C1 at a concrete graph and edge. -/
theorem C1_grade_constraint_witness :
    eT ∈ (build_graph gpT nodesT 1 2 12 "balanced").edges ∧ eT.grade ≤ 12 :=
  ⟨by with_unfolding_all decide, C1_grade_constraint gpT nodesT 1 2 12 "balanced" eT (by with_unfolding_all decide)⟩

/-- Witness for C4 at a concrete graph, edge and policy. -/
theorem C4_weight_formulas_witness :
    eT ∈ (build_graph gpT nodesT 1 2 12 "balanced").edges ∧
    eT.weight = eT.distance * (1 + eT.grade / 10) :=
  ⟨by with_unfolding_all decide,
    (C4_weight_formulas gpT nodesT 1 2 12 "balanced" eT (by with_unfolding_all decide)).2.2.2 rfl⟩

/-- Witness for C5 at a concrete graph and edge. -/
theorem C5_weight_dominates_distance_witness :
    eT ∈ (build_graph gpT nodesT 1 2 12 "balanced").edges ∧
    0 ≤ eT.grade ∧ eT.distance ≤ eT.weight ∧ 0 < eT.weight := by
  have h := C5_weight_dominates_distance gpT nodesT 1 2 12 "balanced" eT (by with_unfolding_all decide)
  exact ⟨by with_unfolding_all decide, h.1, h.2.1 (by norm_num [eT]), h.2.2 (by norm_num [eT])⟩

/-- Witness for C10 at a concrete graph, edge and unrecognized policy. -/
theorem C10_unknown_policy_balanced_witness :
    eT ∈ (build_graph gpT nodesT 1 2 12 "shortest_scenic_route").edges ∧
    eT.weight = eT.distance * (1 + eT.grade / 10) :=
  ⟨by with_unfolding_all decide,
    C10_unknown_policy_balanced gpT nodesT 1 2 12 "shortest_scenic_route"
      (by with_unfolding_all decide) (by with_unfolding_all decide) (by with_unfolding_all decide) eT (by with_unfolding_all decide)⟩

/-- Witness for C7 at concrete points (1 cm threshold not triggered). -/
theorem C7_calculate_grade_total_witness :
    0 ≤ calculate_grade gpT 0 0 5 (1/100) 0 7 ∧
    calculate_grade gpT 0 0 5 (1/100) 0 7 =
      |(7 : ℚ) - 5| / haversine_distance gpT 0 0 (1/100) 0 * 100 :=
  ⟨(C7_calculate_grade_total gpT 0 0 5 (1/100) 0 7).1,
    (C7_calculate_grade_total gpT 0 0 5 (1/100) 0 7).2.2 (by with_unfolding_all decide)⟩

/-- Witness for C2: the empty-input failure case, concretely. -/
theorem C2_success_iff_witness :
    (generate_road_network gpT [] none 6 12 10 (11132/10) "balanced" none
      regionEmptyT).success = false ∧
    (generate_road_network gpT [] none 6 12 10 (11132/10) "balanced" none
      regionEmptyT).error_message = some "No assets to connect" :=
  ⟨((C2_success_iff gpT [] none 6 12 10 (11132/10) "balanced" none
      regionEmptyT).1).mpr (Or.inl rfl),
    (C2_success_iff gpT [] none 6 12 10 (11132/10) "balanced" none
      regionEmptyT).2 rfl⟩

/-- Witness for C8 (amended) on the concrete two-asset run. -/
theorem C8_progress_trace_witness :
    (generate_road_network_full gpT assetsT none 6 12 10 (11132/10) "balanced"
      none regionEmptyT).2 =
      [(16, "Generating pathfinding grid"), (33, "Loading elevation data"),
       (50, "Processing exclusion zones"), (66, "Building pathfinding graph"),
       (83, "Computing road paths"), (100, "Compiling results")] :=
  C8_progress_trace gpT assetsT none 6 12 10 (11132/10) "balanced" none
    regionEmptyT (by with_unfolding_all decide) (by with_unfolding_all decide)

/-- C8 counterexample: on a concrete run that reaches result compilation
(success), the first callback receives the percentage 16, which is not
`1/6 × 100`. -/
theorem C8_counterexample :
    (generate_road_network_full gpT assetsT none 6 12 10 (11132/10) "balanced"
      none regionEmptyT).1.success = true ∧
    ((generate_road_network_full gpT assetsT none 6 12 10 (11132/10) "balanced"
      none regionEmptyT).2.getD 0 (0, "")).1 = 16 ∧
    ((16 : ℚ) ≠ 1 / 6 * 100) := by
  refine ⟨by with_unfolding_all decide, by with_unfolding_all decide, by norm_num⟩

/-- A concrete exclusion region: everything with `x + y ≥ 1`. -/
def regionT : ℚ → ℚ → Bool := fun x y => decide (1 ≤ x + y)

/-- A second concrete node list for the exclusion-mask witness (one node
inside the region, one outside, one already invalid). -/
def nodesT2 : List GridNode :=
  [⟨0, 0, 0, 0, some 5, true⟩, ⟨2, 0, 0, 1, some 7, true⟩,
   ⟨0, 3, 1, 0, none, false⟩]

/-- Witness for C9 at a concrete region and node list. -/
theorem C9_exclusion_mask_frame_witness :
    (mark_exclusion_zones regionT nodesT2).length = nodesT2.length ∧
    ((mark_exclusion_zones regionT nodesT2).getD 1
        ⟨0, 0, 0, 0, none, true⟩).elevation =
      (nodesT2.getD 1 ⟨0, 0, 0, 0, none, true⟩).elevation ∧
    ((mark_exclusion_zones regionT nodesT2).getD 1
        ⟨0, 0, 0, 0, none, true⟩).is_valid =
      (!(regionT (nodesT2.getD 1 ⟨0, 0, 0, 0, none, true⟩).x
          (nodesT2.getD 1 ⟨0, 0, 0, 0, none, true⟩).y) &&
        (nodesT2.getD 1 ⟨0, 0, 0, 0, none, true⟩).is_valid) :=
  ⟨(C9_exclusion_mask_frame regionT nodesT2).1,
    ((C9_exclusion_mask_frame regionT nodesT2).2 1 (by with_unfolding_all decide)).2.2.2.2.1,
    ((C9_exclusion_mask_frame regionT nodesT2).2 1 (by with_unfolding_all decide)).2.2.2.2.2⟩

/-- The first-strict-minimum fold stays inside the candidate list. -/
theorem foldl_min_mem (f : α → ℚ) : ∀ (xs : List α) (b : α),
    xs.foldl (fun b y => if f y < f b then y else b) b ∈ b :: xs := by
  intro xs
  induction xs with
  | nil => intro b; simp
  | cons y ys ih =>
    intro b
    simp only [List.foldl_cons]
    rcases List.mem_cons.mp (ih (if f y < f b then y else b)) with h1 | h1
    · rw [h1]
      split
      · exact List.mem_cons_of_mem _ (List.mem_cons_self _ _)
      · exact List.mem_cons_self _ _
    · exact List.mem_cons_of_mem _ (List.mem_cons_of_mem _ h1)

/-- A Prim candidate pairs a crossing vertex below `n` outside the tree. -/
theorem primCandidates_mem (n : ℕ) (tree : List ℕ) (p : ℕ × ℕ)
    (h : p ∈ primCandidates n tree) : p.2 < n ∧ p.2 ∉ tree := by
  simp only [primCandidates, List.mem_flatMap, List.mem_map,
    List.mem_filter, List.mem_range] at h
  obtain ⟨i, _, j, ⟨hj1, hj2⟩, hp⟩ := h
  rw [← hp]
  simpa using ⟨hj1, by simpa using hj2⟩

/-- As long as a tree vertex and an outside vertex below `n` exist, Prim has
a candidate. -/
theorem primCandidates_ne_nil (n : ℕ) (tree : List ℕ) (i0 j0 : ℕ)
    (hi : i0 ∈ tree) (hj : j0 < n) (hjt : j0 ∉ tree) :
    primCandidates n tree ≠ [] := by
  apply List.ne_nil_of_mem (a := (i0, j0))
  simp only [primCandidates, List.mem_flatMap, List.mem_map,
    List.mem_filter, List.mem_range]
  exact ⟨i0, hi, j0, ⟨hj, by simpa using hjt⟩, rfl⟩

/-- Each Prim round adds exactly one edge while the tree is not yet
spanning: after `k` rounds starting from a `(n - k)`-vertex tree, exactly
`k` edges have been appended. -/
theorem primAux_length (w : ℕ → ℕ → ℚ) (n : ℕ) : ∀ (k : ℕ) (tree : List ℕ)
    (acc : List (ℕ × ℕ)), tree ≠ [] → tree.Nodup → (∀ t ∈ tree, t < n) →
    tree.length + k = n → (primAux w n k tree acc).length = acc.length + k := by
  intro k
  induction k with
  | zero =>
    intro tree acc _ _ _ _
    simp [primAux]
  | succ k ih =>
    intro tree acc htne hnd hbound hlen
    have hout : ∃ j, j < n ∧ j ∉ tree := by
      by_contra hcon
      push_neg at hcon
      have hsub : List.range n ⊆ tree := by
        intro j hj
        exact hcon j (List.mem_range.mp hj)
      have hle := (List.subperm_of_subset (List.nodup_range n) hsub).length_le
      rw [List.length_range] at hle
      omega
    obtain ⟨j0, hj0n, hj0t⟩ := hout
    obtain ⟨i0, hi0⟩ : ∃ i0, i0 ∈ tree := by
      cases tree with
      | nil => exact absurd rfl htne
      | cons a l => exact ⟨a, List.mem_cons_self a l⟩
    have hcands := primCandidates_ne_nil n tree i0 j0 hi0 hj0n hj0t
    obtain ⟨c, cs, hc⟩ : ∃ c cs, primCandidates n tree = c :: cs := by
      cases hcc : primCandidates n tree with
      | nil => exact absurd hcc hcands
      | cons c cs => exact ⟨c, cs, rfl⟩
    have hij : primPick w n tree =
        some (cs.foldl (fun b y =>
          if w y.1 y.2 < w b.1 b.2 then y else b) c) := by
      unfold primPick
      rw [hc]
      rfl
    have hijmem : (cs.foldl (fun b y =>
        if w y.1 y.2 < w b.1 b.2 then y else b) c) ∈
        primCandidates n tree := by
      rw [hc]
      exact foldl_min_mem (fun p => w p.1 p.2) cs c
    obtain ⟨hjn, hjt⟩ := primCandidates_mem n tree _ hijmem
    rw [primAux, hij]
    have hrec := ih (tree ++ [(cs.foldl (fun b y =>
        if w y.1 y.2 < w b.1 b.2 then y else b) c).2])
      ((cs.foldl (fun b y =>
        if w y.1 y.2 < w b.1 b.2 then y else b) c) :: acc)
      (by simp) (by
        rw [List.nodup_append]
        exact ⟨hnd, List.nodup_singleton _, by simpa using hjt⟩)
      (by
        intro t ht
        rcases List.mem_append.mp ht with h | h
        · exact hbound t h
        · simp at h
          omega)
      (by simp; omega)
    rw [hrec]
    simp
    omega

/-- Prim's construction on the complete graph over `n ≥ 2` vertices returns
exactly `n - 1` edges. -/
theorem minimum_spanning_tree_length (w : ℕ → ℕ → ℚ) (n : ℕ) (hn : 2 ≤ n) :
    (minimum_spanning_tree w n).length = n - 1 := by
  unfold minimum_spanning_tree
  rw [if_neg (by omega)]
  have h := primAux_length w n (n - 1) [0] [] (by simp) (by simp)
    (by intro t ht; simp at ht; omega) (by simp; omega)
  rw [h]
  simp

/-- Model of `build_minimum_spanning_tree` returns `N − 1` edges for `N ≥ 2` assets
and none for `N ≤ 1`. -/
theorem build_minimum_spanning_tree_length (gp : GeoPrims)
    (assets : List (ℚ × ℚ)) (G : CostGraph) (nodes : List GridNode)
    (num_cols : ℕ) :
    (build_minimum_spanning_tree gp assets G nodes num_cols).length =
      if 2 ≤ assets.length then assets.length - 1 else 0 := by
  simp only [build_minimum_spanning_tree]
  by_cases h : assets.length < 2
  · rw [if_pos h, if_neg (by omega)]
    rfl
  · rw [if_neg h, if_pos (by omega)]
    exact minimum_spanning_tree_length _ _ (by omega)


/-- Once the nearest-asset scan has seen a distance, it keeps a distance at
most that one. -/
theorem nearStep_foldl_persist (gp : GeoPrims) (entry : ℚ × ℚ) :
    ∀ (ps : List (ℕ × ℚ × ℚ)) (a2 : ℕ) (m : ℚ),
    ∃ mf, (ps.foldl (nearStep gp entry) (some m, a2)).1 = some mf ∧
      mf ≤ m := by
  intro ps
  induction ps with
  | nil =>
    intro a2 m
    exact ⟨m, rfl, le_refl m⟩
  | cons q ps ih =>
    intro a2 m
    simp only [List.foldl_cons]
    by_cases hlt : haversine_distance gp entry.1 entry.2 q.2.1 q.2.2 < m
    · have hstep : nearStep gp entry (some m, a2) q =
          (some (haversine_distance gp entry.1 entry.2 q.2.1 q.2.2), q.1) := by
        simp [nearStep, hlt]
      rw [hstep]
      obtain ⟨mf, hmf, hle⟩ := ih q.1 (haversine_distance gp entry.1 entry.2 q.2.1 q.2.2)
      exact ⟨mf, hmf, le_trans hle (le_of_lt hlt)⟩
    · have hstep : nearStep gp entry (some m, a2) q = (some m, a2) := by
        simp [nearStep, hlt]
      rw [hstep]
      exact ih a2 m

/-- The nearest-asset scan either never moves or lands on some scanned
entry, recording that entry's index and distance. -/
theorem nearStep_foldl_shape (gp : GeoPrims) (entry : ℚ × ℚ) :
    ∀ (ps : List (ℕ × ℚ × ℚ)) (acc : Option ℚ × ℕ),
    (ps.foldl (nearStep gp entry) acc) = acc ∨
    ∃ q ∈ ps, (ps.foldl (nearStep gp entry) acc).2 = q.1 ∧
      (ps.foldl (nearStep gp entry) acc).1 =
        some (haversine_distance gp entry.1 entry.2 q.2.1 q.2.2) := by
  intro ps
  induction ps with
  | nil =>
    intro acc
    exact Or.inl rfl
  | cons q ps ih =>
    intro acc
    obtain ⟨a1, a2⟩ := acc
    simp only [List.foldl_cons]
    have hnext : ∀ nacc : Option ℚ × ℕ,
        (nacc = (some (haversine_distance gp entry.1 entry.2 q.2.1 q.2.2), q.1)) →
        (ps.foldl (nearStep gp entry) nacc = nacc ∨
          ∃ q' ∈ ps, (ps.foldl (nearStep gp entry) nacc).2 = q'.1 ∧
            (ps.foldl (nearStep gp entry) nacc).1 =
              some (haversine_distance gp entry.1 entry.2 q'.2.1 q'.2.2)) →
        (∃ q' ∈ q :: ps, (ps.foldl (nearStep gp entry) nacc).2 = q'.1 ∧
            (ps.foldl (nearStep gp entry) nacc).1 =
              some (haversine_distance gp entry.1 entry.2 q'.2.1 q'.2.2)) := by
      intro nacc hval hcase
      rcases hcase with h | h
      · rw [h, hval]
        exact ⟨q, List.mem_cons_self _ _, rfl, rfl⟩
      · obtain ⟨q', hq', h1, h2⟩ := h
        exact ⟨q', List.mem_cons_of_mem _ hq', h1, h2⟩
    rcases a1 with _ | m
    · have hstep : nearStep gp entry (none, a2) q =
          (some (haversine_distance gp entry.1 entry.2 q.2.1 q.2.2), q.1) := rfl
      rw [hstep]
      exact Or.inr (hnext _ rfl (ih _))
    · by_cases hlt : haversine_distance gp entry.1 entry.2 q.2.1 q.2.2 < m
      · have hstep : nearStep gp entry (some m, a2) q =
            (some (haversine_distance gp entry.1 entry.2 q.2.1 q.2.2), q.1) := by
          simp [nearStep, hlt]
        rw [hstep]
        exact Or.inr (hnext _ rfl (ih _))
      · have hstep : nearStep gp entry (some m, a2) q = (some m, a2) := by
          simp [nearStep, hlt]
        rw [hstep]
        rcases ih (some m, a2) with h | h
        · rw [h]
          exact Or.inl rfl
        · obtain ⟨q', hq', h1, h2⟩ := h
          exact Or.inr ⟨q', List.mem_cons_of_mem _ hq', h1, h2⟩

/-- The distance recorded by the nearest-asset scan is a lower bound on the
distance of every scanned entry. -/
theorem nearStep_foldl_min (gp : GeoPrims) (entry : ℚ × ℚ) :
    ∀ (ps : List (ℕ × ℚ × ℚ)) (acc : Option ℚ × ℕ),
    ∀ q ∈ ps, ∀ mf, (ps.foldl (nearStep gp entry) acc).1 = some mf →
      mf ≤ haversine_distance gp entry.1 entry.2 q.2.1 q.2.2 := by
  intro ps
  induction ps with
  | nil =>
    intro acc q hq
    simp at hq
  | cons q0 ps ih =>
    intro acc q hq mf hmf
    simp only [List.foldl_cons] at hmf
    rcases List.mem_cons.mp hq with h | h
    · subst h
      obtain ⟨a1, a2⟩ := acc
      have hstep : ∃ m', nearStep gp entry (a1, a2) q = (some m', (nearStep gp entry (a1, a2) q).2) ∧
          m' ≤ haversine_distance gp entry.1 entry.2 q.2.1 q.2.2 := by
        rcases a1 with _ | m
        · exact ⟨_, rfl, le_refl _⟩
        · by_cases hlt : haversine_distance gp entry.1 entry.2 q.2.1 q.2.2 < m
          · have : nearStep gp entry (some m, a2) q =
                (some (haversine_distance gp entry.1 entry.2 q.2.1 q.2.2), q.1) := by
              simp [nearStep, hlt]
            rw [this]
            exact ⟨_, rfl, le_refl _⟩
          · have : nearStep gp entry (some m, a2) q = (some m, a2) := by
              simp [nearStep, hlt]
            rw [this]
            push_neg at hlt
            exact ⟨m, rfl, hlt⟩
      obtain ⟨m', hm', hle⟩ := hstep
      rw [hm'] at hmf
      obtain ⟨mf', hmf', hmfle⟩ := nearStep_foldl_persist gp entry ps _ m'
      rw [hmf] at hmf'
      obtain rfl := Option.some.inj hmf'.symm
      exact le_trans hmfle hle
    · exact ih (nearStep gp entry acc q0) q h mf hmf

/-- On a nonempty list the nearest-asset scan records some distance. -/
theorem nearStep_foldl_isSome (gp : GeoPrims) (entry : ℚ × ℚ) :
    ∀ (ps : List (ℕ × ℚ × ℚ)) (acc : Option ℚ × ℕ), ps ≠ [] →
    ((ps.foldl (nearStep gp entry) acc).1).isSome := by
  intro ps
  induction ps with
  | nil =>
    intro acc h
    exact absurd rfl h
  | cons q ps ih =>
    intro acc _
    obtain ⟨a1, a2⟩ := acc
    simp only [List.foldl_cons]
    have hsome : ∃ m' b', nearStep gp entry (a1, a2) q = (some m', b') := by
      rcases a1 with _ | m
      · exact ⟨_, _, rfl⟩
      · by_cases hlt : haversine_distance gp entry.1 entry.2 q.2.1 q.2.2 < m
        · exact ⟨haversine_distance gp entry.1 entry.2 q.2.1 q.2.2, q.1,
            by simp [nearStep, hlt]⟩
        · exact ⟨m, a2, by simp [nearStep, hlt]⟩
    obtain ⟨m', b', hm'⟩ := hsome
    rw [hm']
    rcases hps : ps with _ | ⟨q', ps'⟩
    · rfl
    · rw [← hps]
      obtain ⟨mf, hmf, -⟩ := nearStep_foldl_persist gp entry ps b' m'
      rw [hmf]
      rfl

/-- An entry of `enumFrom k l` is an in-range index paired with the list
element at it. -/
theorem mem_enumFrom_getD : ∀ (l : List (ℚ × ℚ)) (k : ℕ) (q : ℕ × ℚ × ℚ),
    q ∈ l.enumFrom k → k ≤ q.1 ∧ q.1 < k + l.length ∧
      l.getD (q.1 - k) (0, 0) = q.2 := by
  intro l
  induction l with
  | nil =>
    intro k q hq
    simp [List.enumFrom] at hq
  | cons x xs ih =>
    intro k q hq
    rcases List.mem_cons.mp hq with h | h
    · subst h
      refine ⟨le_refl k, by simp only [List.length_cons]; omega, ?_⟩
      simp
    · obtain ⟨h1, h2, h3⟩ := ih (k + 1) q h
      refine ⟨by omega, by simp only [List.length_cons]; omega, ?_⟩
      have hsub : q.1 - k = (q.1 - (k + 1)) + 1 := by omega
      rw [hsub, List.getD_cons_succ]
      exact h3

/-- Every in-range index appears in `enumFrom` with its element. -/
theorem enumFrom_mem_of_lt : ∀ (l : List (ℚ × ℚ)) (k i : ℕ), i < l.length →
    (k + i, l.getD i (0, 0)) ∈ l.enumFrom k := by
  intro l
  induction l with
  | nil =>
    intro k i hi
    simp at hi
  | cons x xs ih =>
    intro k i hi
    cases i with
    | zero =>
      simp
    | succ j =>
      have := ih (k + 1) j (by simp at hi; omega)
      have heq : k + (j + 1) = (k + 1) + j := by omega
      rw [heq, List.getD_cons_succ]
      exact List.mem_cons_of_mem _ this

/-- Specification of the nearest-asset scan: on a nonempty asset list it
returns an in-range index whose distance from the entry point is minimal. -/
theorem nearestAssetIdx_spec (gp : GeoPrims) (entry : ℚ × ℚ)
    (assets : List (ℚ × ℚ)) (h : assets ≠ []) :
    nearestAssetIdx gp entry assets < assets.length ∧
    ∀ i, i < assets.length →
      haversine_distance gp entry.1 entry.2
          (assets.getD (nearestAssetIdx gp entry assets) (0, 0)).1
          (assets.getD (nearestAssetIdx gp entry assets) (0, 0)).2 ≤
        haversine_distance gp entry.1 entry.2 (assets.getD i (0, 0)).1
          (assets.getD i (0, 0)).2 := by
  have henum : assets.enum ≠ [] := by
    intro hc
    have := congrArg List.length hc
    rw [List.enum_length] at this
    exact h (List.eq_nil_of_length_eq_zero this)
  have hsome := nearStep_foldl_isSome gp entry assets.enum
    ((none : Option ℚ), 0) henum
  rcases nearStep_foldl_shape gp entry assets.enum ((none : Option ℚ), 0) with
    hsh | hsh
  · rw [hsh] at hsome
    simp at hsome
  · obtain ⟨q, hq, h1, h2⟩ := hsh
    obtain ⟨hk, hlt, hget⟩ := mem_enumFrom_getD assets 0 q hq
    have hidx : nearestAssetIdx gp entry assets = q.1 := h1
    constructor
    · rw [hidx]
      omega
    · intro i hi
      have hmemi := enumFrom_mem_of_lt assets 0 i hi
      have hmin := nearStep_foldl_min gp entry assets.enum
        ((none : Option ℚ), 0) (0 + i, assets.getD i (0, 0)) hmemi _ h2
      simp only at hmin
      have hq2 : assets.getD (nearestAssetIdx gp entry assets) (0, 0) = q.2 := by
        rw [hidx]
        have : q.1 - 0 = q.1 := by omega
        rw [← hget, this]
      rw [hq2]
      exact hmin

/-- C3: with no entry point the topology selection returns exactly `N − 1`
edges for `N ≥ 2` assets and none for `N ≤ 1`; with an entry point (and a
nonempty asset list) exactly one extra edge is appended, joining the entry
point — added as index `N` — to an original asset at minimal great-circle
distance from it. -/
theorem C3_topology_selection (gp : GeoPrims) (assets : List (ℚ × ℚ))
    (G : CostGraph) (nodes : List GridNode) (num_cols : ℕ) :
    ((select_topology gp assets none G nodes num_cols).1.length =
      if 2 ≤ assets.length then assets.length - 1 else 0) ∧
    (∀ e : ℚ × ℚ, assets ≠ [] →
      (select_topology gp assets (some e) G nodes num_cols).1 =
        build_minimum_spanning_tree gp assets G nodes num_cols ++
          [(assets.length, nearestAssetIdx gp e assets)] ∧
      (select_topology gp assets (some e) G nodes num_cols).1.length =
        (if 2 ≤ assets.length then assets.length - 1 else 0) + 1 ∧
      nearestAssetIdx gp e assets < assets.length ∧
      (∀ i, i < assets.length →
        haversine_distance gp e.1 e.2
            (assets.getD (nearestAssetIdx gp e assets) (0, 0)).1
            (assets.getD (nearestAssetIdx gp e assets) (0, 0)).2 ≤
          haversine_distance gp e.1 e.2 (assets.getD i (0, 0)).1
            (assets.getD i (0, 0)).2)) := by
  constructor
  · simp only [select_topology]
    exact build_minimum_spanning_tree_length gp assets G nodes num_cols
  · intro e he
    have hsel : (select_topology gp assets (some e) G nodes num_cols).1 =
        build_minimum_spanning_tree gp assets G nodes num_cols ++
          [(assets.length, nearestAssetIdx gp e assets)] := by
      simp only [select_topology]
      rw [if_pos he]
    obtain ⟨hb1, hb2⟩ := nearestAssetIdx_spec gp e assets he
    refine ⟨hsel, ?_, hb1, hb2⟩
    rw [hsel]
    simp only [List.length_append, List.length_cons, List.length_nil]
    rw [build_minimum_spanning_tree_length gp assets G nodes num_cols]

/-- Witness for C3 with the two concrete assets and a concrete entry point. -/
theorem C3_topology_selection_witness :
    (select_topology gpT assetsT none
      (build_graph gpT nodesT 1 2 12 "balanced") nodesT 2).1.length =
      (if 2 ≤ assetsT.length then assetsT.length - 1 else 0) ∧
    (select_topology gpT assetsT (some (-(1/100), 0))
      (build_graph gpT nodesT 1 2 12 "balanced") nodesT 2).1 =
      build_minimum_spanning_tree gpT assetsT
        (build_graph gpT nodesT 1 2 12 "balanced") nodesT 2 ++
        [(assetsT.length, nearestAssetIdx gpT (-(1/100), 0) assetsT)] ∧
    nearestAssetIdx gpT (-(1/100), 0) assetsT < assetsT.length ∧
    haversine_distance gpT (-(1/100)) 0
        (assetsT.getD (nearestAssetIdx gpT (-(1/100), 0) assetsT) (0, 0)).1
        (assetsT.getD (nearestAssetIdx gpT (-(1/100), 0) assetsT) (0, 0)).2 ≤
      haversine_distance gpT (-(1/100)) 0 (assetsT.getD 1 (0, 0)).1
        (assetsT.getD 1 (0, 0)).2 := by
  have h := C3_topology_selection gpT assetsT
    (build_graph gpT nodesT 1 2 12 "balanced") nodesT 2
  have h2 := h.2 (-(1/100), 0) (by simp [assetsT])
  exact ⟨h.1, h2.1, h2.2.2.1, h2.2.2.2 1 (by simp [assetsT])⟩

/-- Squared deviations are non-negative. -/
theorem devSq_nonneg (a b p : ℚ × ℚ) : 0 ≤ devSq a b p := by
  simp only [devSq]
  split
  · positivity
  · positivity

/-- The deviation of the chord's first endpoint is zero. -/
theorem devSq_self_left (a b : ℚ × ℚ) : devSq a b a = 0 := by
  simp only [devSq]
  split
  · simp
  · simp

/-- The deviation of the chord's second endpoint is zero. -/
theorem devSq_self_right (a b : ℚ × ℚ) : devSq a b b = 0 := by
  simp only [devSq]
  split
  · rename_i h
    have h1 : (b.1 - a.1) = 0 ∧ (b.2 - a.2) = 0 := by
      constructor <;> nlinarith [sq_nonneg (b.1 - a.1), sq_nonneg (b.2 - a.2),
        mul_self_nonneg (b.1 - a.1), mul_self_nonneg (b.2 - a.2)]
    rw [h1.1, h1.2]
    norm_num
  · rename_i h
    have ht : ((b.1 - a.1) * (b.1 - a.1) + (b.2 - a.2) * (b.2 - a.2)) /
        ((b.1 - a.1) * (b.1 - a.1) + (b.2 - a.2) * (b.2 - a.2)) = 1 :=
      div_self h
    rw [ht]
    norm_num

/-- Model of `dpRec` on an under-3-point polyline. -/
theorem dpRec_eq_of_lt (tolSq : ℚ) (pts : List (ℚ × ℚ))
    (h : pts.length < 3) : dpRec tolSq pts = pts := by
  rw [dpRec]
  simp [h]

/-- Model of `dpRec` when the maximal deviation is within tolerance. -/
theorem dpRec_eq_of_le (tolSq : ℚ) (pts : List (ℚ × ℚ))
    (h1 : ¬ pts.length < 3)
    (h2 : ¬ (dpPick (dpDev pts) pts.length).2 > tolSq) :
    dpRec tolSq pts = [pts.headD (0, 0), pts.getLastD (0, 0)] := by
  rw [dpRec]
  rw [dif_neg h1, if_neg h2]

/-- Model of `dpRec` when the maximal deviation exceeds the tolerance. -/
theorem dpRec_eq_split (tolSq : ℚ) (pts : List (ℚ × ℚ))
    (h1 : ¬ pts.length < 3)
    (h2 : (dpPick (dpDev pts) pts.length).2 > tolSq) :
    dpRec tolSq pts =
      dpRec tolSq (pts.take ((dpPick (dpDev pts) pts.length).1 + 1)) ++
      (dpRec tolSq (pts.drop ((dpPick (dpDev pts) pts.length).1))).tail := by
  rw [dpRec]
  rw [dif_neg h1, if_pos h2]

/-- Model of `headD` of an append with nonempty left part. -/
theorem headD_append_left {α : Type} (l r : List α) (d : α) (h : l ≠ []) :
    (l ++ r).headD d = l.headD d := by
  cases l with
  | nil => exact absurd rfl h
  | cons x xs => simp

/-- Model of `headD` of a nonempty prefix. -/
theorem headD_take_succ {α : Type} (l : List α) (n : ℕ) (d : α) :
    (l.take (n + 1)).headD d = l.headD d := by
  cases l with
  | nil => simp
  | cons x xs => simp

/-- Model of `getLastD` does not depend on the default on nonempty lists. -/
theorem getLastD_irrel {α : Type} (l : List α) (d1 d2 : α) (h : l ≠ []) :
    l.getLastD d1 = l.getLastD d2 := by
  rw [List.getLastD_eq_getLast?, List.getLastD_eq_getLast?,
    List.getLast?_eq_getLast l h]
  rfl

/-- Model of `getLastD` of an append with nonempty right part. -/
theorem getLastD_append_right {α : Type} (l r : List α) (d : α) (h : r ≠ []) :
    (l ++ r).getLastD d = r.getLastD d := by
  induction l with
  | nil => rfl
  | cons x xs ih =>
    rcases hxr : xs ++ r with _ | ⟨y, ys⟩
    · rcases List.append_eq_nil.mp hxr with ⟨-, h2⟩
      exact absurd h2 h
    · calc ((x :: xs) ++ r).getLastD d = (xs ++ r).getLastD x := by
            rw [List.cons_append, List.getLastD_cons]
      _ = (xs ++ r).getLastD d := by
            apply getLastD_irrel
            rw [hxr]
            simp
      _ = r.getLastD d := ih

/-- Model of `getLastD` of the tail agrees with `getLastD` when the tail is
nonempty. -/
theorem getLastD_tail {α : Type} (l : List α) (d : α) (h : l.tail ≠ []) :
    l.tail.getLastD d = l.getLastD d := by
  cases l with
  | nil => simp at h
  | cons x xs =>
    simp only [List.tail_cons] at h ⊢
    rw [List.getLastD_cons]
    exact getLastD_irrel xs d x h

/-- Dropping in-range elements preserves `getLastD`. -/
theorem getLastD_drop {α : Type} : ∀ (l : List α) (m : ℕ) (d : α),
    m < l.length → (l.drop m).getLastD d = l.getLastD d := by
  intro l
  induction l with
  | nil =>
    intro m d h
    simp at h
  | cons x xs ih =>
    intro m d h
    cases m with
    | zero => rfl
    | succ k =>
      have hk : k < xs.length := by
        simp only [List.length_cons] at h
        omega
      have hxs : xs ≠ [] := by
        intro hc
        rw [hc] at hk
        simp at hk
      simp only [List.drop_succ_cons]
      rw [ih k d hk, List.getLastD_cons]
      exact getLastD_irrel xs d x hxs

/-- Model of `getLastD` of a `take (m+1)` prefix is the element at `m`. -/
theorem getLastD_take {α : Type} : ∀ (l : List α) (m : ℕ) (d : α),
    m < l.length → (l.take (m + 1)).getLastD d = l.getD m d := by
  intro l
  induction l with
  | nil =>
    intro m d h
    simp at h
  | cons x xs ih =>
    intro m d h
    cases m with
    | zero => simp
    | succ k =>
      have hk : k < xs.length := by
        simp only [List.length_cons] at h
        omega
      simp only [List.take_succ_cons, List.getD_cons_succ]
      rw [List.getLastD_cons]
      have htake : xs.take (k + 1) ≠ [] := by
        intro hc
        have hlen := congrArg List.length hc
        simp only [List.length_take, List.length_nil] at hlen
        omega
      rw [getLastD_irrel (xs.take (k + 1)) x d htake]
      exact ih k d hk

/-- The last element of a list with at least two elements lies in its
tail. -/
theorem getLastD_mem_tail {α : Type} (l : List α) (d : α)
    (h : 2 ≤ l.length) : l.getLastD d ∈ l.tail := by
  cases l with
  | nil => simp at h
  | cons x xs =>
    simp only [List.tail_cons]
    rw [List.getLastD_cons]
    cases xs with
    | nil => simp at h
    | cons y ys =>
      rw [List.getLastD_cons]
      have : ys.getLastD y ∈ y :: ys := by
        rcases hys : ys with _ | ⟨z, zs⟩
        · simp
        · rw [← hys]
          have hne : ys ≠ [] := by rw [hys]; simp
          rw [List.getLastD_eq_getLast?, List.getLast?_eq_getLast _ hne]
          exact List.mem_cons_of_mem _ (List.getLast_mem hne)
      exact this

/-- Sublists are preserved by `tail` on both sides. -/
theorem sublist_tail_mono {α : Type} {l r : List α} (h : List.Sublist l r) :
    List.Sublist l.tail r.tail := by
  induction h with
  | slnil => exact List.Sublist.refl _
  | @cons l₁ l₂ a hsub ih =>
    exact List.Sublist.trans (List.tail_sublist l₁) hsub
  | @cons₂ l₁ l₂ a hsub ih =>
    simpa using hsub

/-- Sublists are preserved by `dropLast` on both sides. -/
theorem sublist_dropLast_mono {α : Type} {l r : List α}
    (h : List.Sublist l r) : List.Sublist l.dropLast r.dropLast := by
  induction h with
  | slnil => exact List.Sublist.refl _
  | @cons l₁ l₂ a hsub ih =>
    rcases l₂ with _ | ⟨y, ys⟩
    · have : l₁ = [] := List.sublist_nil.mp hsub
      subst this
      simp
    · refine List.Sublist.trans ih ?_
      rw [List.dropLast_cons₂]
      exact List.sublist_cons_of_sublist a (List.Sublist.refl _)
  | @cons₂ l₁ l₂ a hsub ih =>
    rcases l₁ with _ | ⟨x, xs⟩
    · simp
    · rcases l₂ with _ | ⟨y, ys⟩
      · exact absurd (List.sublist_nil.mp hsub) (by simp)
      · rw [List.dropLast_cons₂, List.dropLast_cons₂]
        exact List.Sublist.cons₂ a ih

/-- Model of `dropLast` of a `take (m+1)` prefix is the `take m` prefix. -/
theorem dropLast_take_succ {α : Type} (l : List α) (m : ℕ)
    (h : m < l.length) : (l.take (m + 1)).dropLast = l.take m := by
  rw [List.dropLast_eq_take, List.length_take, List.take_take]
  congr 1
  omega

/-- The simplified polyline is never empty (on nonempty input). -/
theorem dpRec_ne_nil (tolSq : ℚ) : ∀ (pts : List (ℚ × ℚ)), pts ≠ [] →
    dpRec tolSq pts ≠ [] := by
  intro pts
  induction pts using dpRec.induct tolSq with
  | case1 x hlen =>
    intro hne
    rw [dpRec_eq_of_lt tolSq x hlen]
    exact hne
  | case2 x hlen hpick ih1 ih2 =>
    intro _
    rw [dpRec_eq_split tolSq x hlen hpick]
    have h1 : x.take ((dpPick (dpDev x) x.length).1 + 1) ≠ [] := by
      intro hc
      have := congrArg List.length hc
      simp only [List.length_take, List.length_nil] at this
      omega
    intro hc
    rcases List.append_eq_nil.mp hc with ⟨h2, -⟩
    exact ih1 h1 h2
  | case3 x hlen hpick =>
    intro _
    rw [dpRec_eq_of_le tolSq x hlen hpick]
    simp

/-- The simplified polyline keeps at least two vertices (on inputs with at
least two). -/
theorem dpRec_length_ge2 (tolSq : ℚ) : ∀ (pts : List (ℚ × ℚ)),
    2 ≤ pts.length → 2 ≤ (dpRec tolSq pts).length := by
  intro pts
  induction pts using dpRec.induct tolSq with
  | case1 x hlen =>
    intro h2
    rw [dpRec_eq_of_lt tolSq x hlen]
    exact h2
  | case2 x hlen hpick ih1 ih2 =>
    intro _
    rw [dpRec_eq_split tolSq x hlen hpick]
    have hb := dpPick_bounds (dpDev x) x.length (by omega)
    have h1 : 2 ≤ (x.take ((dpPick (dpDev x) x.length).1 + 1)).length := by
      simp only [List.length_take]
      omega
    have := ih1 h1
    rw [List.length_append]
    omega
  | case3 x hlen hpick =>
    intro _
    rw [dpRec_eq_of_le tolSq x hlen hpick]
    simp

/-- The simplified polyline is a sublist of the input. -/
theorem dpRec_sublist (tolSq : ℚ) : ∀ (pts : List (ℚ × ℚ)),
    List.Sublist (dpRec tolSq pts) pts := by
  intro pts
  induction pts using dpRec.induct tolSq with
  | case1 x hlen =>
    rw [dpRec_eq_of_lt tolSq x hlen]
  | case2 x hlen hpick ih1 ih2 =>
    rw [dpRec_eq_split tolSq x hlen hpick]
    have hb := dpPick_bounds (dpDev x) x.length (by omega)
    have h2 : List.Sublist
        (dpRec tolSq (x.drop ((dpPick (dpDev x) x.length).1))).tail
        (x.drop ((dpPick (dpDev x) x.length).1 + 1)) := by
      have := sublist_tail_mono ih2
      rw [List.tail_drop] at this
      exact this
    have h3 := List.Sublist.append ih1 h2
    rw [List.take_append_drop] at h3
    exact h3
  | case3 x hlen hpick =>
    rw [dpRec_eq_of_le tolSq x hlen hpick]
    have hx : x ≠ [] := by
      intro hc
      rw [hc] at hlen
      simp at hlen
    rcases x with _ | ⟨y, ys⟩
    · exact absurd rfl hx
    · simp only [List.headD_cons]
      have h2 : (y :: ys).getLastD (0, 0) ∈ ys :=
        getLastD_mem_tail (y :: ys) (0, 0) (by simp at hlen ⊢; omega)
      exact List.cons_sublist_cons.mpr (List.singleton_sublist.mpr h2)

/-- The simplified polyline starts at the input's first vertex. -/
theorem dpRec_headD (tolSq : ℚ) : ∀ (pts : List (ℚ × ℚ)),
    (dpRec tolSq pts).headD (0, 0) = pts.headD (0, 0) := by
  intro pts
  induction pts using dpRec.induct tolSq with
  | case1 x hlen =>
    rw [dpRec_eq_of_lt tolSq x hlen]
  | case2 x hlen hpick ih1 ih2 =>
    rw [dpRec_eq_split tolSq x hlen hpick]
    have h1 : dpRec tolSq (x.take ((dpPick (dpDev x) x.length).1 + 1)) ≠ [] := by
      apply dpRec_ne_nil
      intro hc
      have := congrArg List.length hc
      simp only [List.length_take, List.length_nil] at this
      omega
    rw [headD_append_left _ _ _ h1, ih1, headD_take_succ]
  | case3 x hlen hpick =>
    rw [dpRec_eq_of_le tolSq x hlen hpick]
    simp

/-- The simplified polyline ends at the input's last vertex. -/
theorem dpRec_getLastD (tolSq : ℚ) : ∀ (pts : List (ℚ × ℚ)),
    (dpRec tolSq pts).getLastD (0, 0) = pts.getLastD (0, 0) := by
  intro pts
  induction pts using dpRec.induct tolSq with
  | case1 x hlen =>
    rw [dpRec_eq_of_lt tolSq x hlen]
  | case2 x hlen hpick ih1 ih2 =>
    rw [dpRec_eq_split tolSq x hlen hpick]
    have hb := dpPick_bounds (dpDev x) x.length (by omega)
    have hT2 : 2 ≤ (dpRec tolSq (x.drop ((dpPick (dpDev x) x.length).1))).length := by
      apply dpRec_length_ge2
      simp only [List.length_drop]
      omega
    have hTt : (dpRec tolSq (x.drop ((dpPick (dpDev x) x.length).1))).tail ≠ [] := by
      intro hc
      have := congrArg List.length hc
      simp only [List.length_tail, List.length_nil] at this
      omega
    rw [getLastD_append_right _ _ _ hTt, getLastD_tail _ _ hTt, ih2,
      getLastD_drop _ _ _ (by omega)]
  | case3 x hlen hpick =>
    rw [dpRec_eq_of_le tolSq x hlen hpick]
    rfl

/-- Model of `getD 0` is `headD`. -/
theorem getD_zero_headD {α : Type} (l : List α) (d : α) :
    l.getD 0 d = l.headD d := by
  cases l <;> simp

/-- Model of `headD` after an in-range `drop` is the element at that index. -/
theorem headD_drop {α : Type} : ∀ (l : List α) (m : ℕ) (d : α),
    m < l.length → (l.drop m).headD d = l.getD m d := by
  intro l
  induction l with
  | nil =>
    intro m d h
    simp at h
  | cons x xs ih =>
    intro m d h
    cases m with
    | zero => rfl
    | succ k =>
      simp only [List.drop_succ_cons, List.getD_cons_succ]
      exact ih k d (by simp only [List.length_cons] at h; omega)

/-- The element at the last index is `getLastD`. -/
theorem getD_length_sub_one {α : Type} : ∀ (l : List α) (d : α), l ≠ [] →
    l.getD (l.length - 1) d = l.getLastD d := by
  intro l
  induction l with
  | nil =>
    intro d h
    exact absurd rfl h
  | cons x xs ih =>
    intro d h
    rcases hxs : xs with _ | ⟨y, ys⟩
    · simp
    · rw [← hxs]
      have hne : xs ≠ [] := by rw [hxs]; simp
      have hlen : (x :: xs).length - 1 = (xs.length - 1) + 1 := by
        rcases xs with _ | _
        · exact absurd rfl hne
        · simp
      rw [hlen, List.getD_cons_succ, List.getLastD_cons, ih d hne]
      exact getLastD_irrel xs d x hne

/-- Dropping everything but the last element leaves exactly it. -/
theorem drop_length_sub_one {α : Type} : ∀ (l : List α) (d : α), l ≠ [] →
    l.drop (l.length - 1) = [l.getLastD d] := by
  intro l
  induction l with
  | nil =>
    intro d h
    exact absurd rfl h
  | cons x xs ih =>
    intro d h
    rcases hxs : xs with _ | ⟨y, ys⟩
    · simp
    · rw [← hxs]
      have hne : xs ≠ [] := by rw [hxs]; simp
      have hlen : (x :: xs).length - 1 = (xs.length - 1) + 1 := by
        rcases xs with _ | _
        · exact absurd rfl hne
        · simp
      rw [hlen, List.drop_succ_cons, ih x hne, List.getLastD_cons]

/-- In-range `getD` values are members. -/
theorem getD_mem {α : Type} : ∀ (l : List α) (i : ℕ) (d : α),
    i < l.length → l.getD i d ∈ l := by
  intro l
  induction l with
  | nil =>
    intro i d h
    simp at h
  | cons x xs ih =>
    intro i d h
    cases i with
    | zero => simp
    | succ k =>
      rw [List.getD_cons_succ]
      exact List.mem_cons_of_mem _ (ih k d (by
        simp only [List.length_cons] at h; omega))

/-- Elements strictly before the last position lie in `dropLast`. -/
theorem getD_mem_dropLast {α : Type} (l : List α) (i : ℕ) (d : α)
    (h : i < l.length - 1) : l.getD i d ∈ l.dropLast := by
  have h1 : l.dropLast.getD i d = l.getD i d := by
    rw [List.dropLast_eq_take]
    have := List.getD_eq_getElem (l := l.take (l.length - 1)) (d := d)
      (n := i) (by simp only [List.length_take]; omega)
    rw [this, List.getElem_take, ← List.getD_eq_getElem l d (by omega)]
  rw [← h1]
  apply getD_mem
  rw [List.dropLast_eq_take]
  simp only [List.length_take]
  omega

/-- A member of `take m` is an element at an index below `m`. -/
theorem mem_take_getD {α : Type} (l : List α) (m : ℕ) (x : α) (d : α)
    (h : x ∈ l.take m) : ∃ j, j < m ∧ j < l.length ∧ l.getD j d = x := by
  obtain ⟨j, hj, hx⟩ := List.getElem_of_mem h
  have hjm : j < m := by
    have := hj
    simp only [List.length_take] at this
    omega
  have hjl : j < l.length := by
    have := hj
    simp only [List.length_take] at this
    omega
  refine ⟨j, hjm, hjl, ?_⟩
  rw [List.getD_eq_getElem l d hjl, ← hx, List.getElem_take]

/-- A member of `drop m` is an element at an index at least `m`. -/
theorem mem_drop_getD {α : Type} (l : List α) (m : ℕ) (x : α) (d : α)
    (h : x ∈ l.drop m) : ∃ j, m ≤ j ∧ j < l.length ∧ l.getD j d = x := by
  obtain ⟨j, hj, hx⟩ := List.getElem_of_mem h
  have hjl : m + j < l.length := by
    have := hj
    simp only [List.length_drop] at this
    omega
  refine ⟨m + j, by omega, hjl, ?_⟩
  rw [List.getD_eq_getElem l d hjl, ← hx, List.getElem_drop]

/-- Characterization of `dpPick`: an interior index carrying the maximal
deviation, strictly above every earlier interior deviation, is the chosen
one. -/
theorem dpPick_unique (dev : ℕ → ℚ) (n : ℕ) (hn : 3 ≤ n) (p : ℕ) (d : ℚ)
    (hp1 : 1 ≤ p) (hp2 : p + 2 ≤ n) (hval : dev p = d)
    (hub : ∀ j, 1 ≤ j → j + 1 < n → dev j ≤ d)
    (hstrict : ∀ j, 1 ≤ j → j < p → dev j < d) :
    dpPick dev n = (p, d) := by
  obtain ⟨h1, ⟨hb1, hb2⟩, h4, h5⟩ := dpPick_spec dev n hn
  have hdmle : (dpPick dev n).2 ≤ d := by
    rw [h1]
    exact hub (dpPick dev n).1 hb1 (by omega)
  have hdle : d ≤ (dpPick dev n).2 := by
    rw [← hval]
    exact h4 p hp1 (by omega)
  have heq : (dpPick dev n).2 = d := le_antisymm hdmle hdle
  have hmp : (dpPick dev n).1 = p := by
    by_contra hne
    rcases Nat.lt_or_ge (dpPick dev n).1 p with h | h
    · have hlt := hstrict (dpPick dev n).1 hb1 h
      rw [← h1] at hlt
      rw [heq] at hlt
      exact absurd hlt (lt_irrefl d)
    · have hplt : p < (dpPick dev n).1 := by omega
      have hlt := h5 p hp1 hplt
      rw [hval, heq] at hlt
      exact absurd hlt (lt_irrefl d)
  exact Prod.ext hmp heq

/-- Idempotence of the Douglas–Peucker recursion (for the squared
tolerances that arise from `simplify_path`, which are non-negative). -/
theorem dpRec_idem (tolSq : ℚ) (htol : 0 ≤ tolSq) : ∀ (pts : List (ℚ × ℚ)),
    dpRec tolSq (dpRec tolSq pts) = dpRec tolSq pts := by
  intro pts
  induction pts using dpRec.induct tolSq with
  | case1 x hlen =>
    rw [dpRec_eq_of_lt tolSq x hlen, dpRec_eq_of_lt tolSq x hlen]
  | case3 x hlen hpick =>
    rw [dpRec_eq_of_le tolSq x hlen hpick]
    exact dpRec_eq_of_lt tolSq _ (by simp)
  | case2 x hlen hpick ih1 ih2 =>
    have hb := dpPick_bounds (dpDev x) x.length (by omega)
    obtain ⟨hd1, -, hub, hstrict⟩ := dpPick_spec (dpDev x) x.length (by omega)
    have hdpos : 0 < (dpPick (dpDev x) x.length).2 := lt_of_le_of_lt htol hpick
    -- abbreviations
    have hsplit := dpRec_eq_split tolSq x hlen hpick
    have hLlen2 : 2 ≤ (dpRec tolSq
        (x.take ((dpPick (dpDev x) x.length).1 + 1))).length := by
      apply dpRec_length_ge2
      simp only [List.length_take]
      omega
    have hTlen2 : 2 ≤ (dpRec tolSq
        (x.drop ((dpPick (dpDev x) x.length).1))).length := by
      apply dpRec_length_ge2
      simp only [List.length_drop]
      omega
    have hLne : dpRec tolSq (x.take ((dpPick (dpDev x) x.length).1 + 1)) ≠ [] := by
      intro hc
      have := congrArg List.length hc
      simp only [List.length_nil] at this
      omega
    have hTtne : (dpRec tolSq
        (x.drop ((dpPick (dpDev x) x.length).1))).tail ≠ [] := by
      intro hc
      have := congrArg List.length hc
      simp only [List.length_tail, List.length_nil] at this
      omega
    have hTtlen : 1 ≤ (dpRec tolSq
        (x.drop ((dpPick (dpDev x) x.length).1))).tail.length := by
      simp only [List.length_tail]
      omega
    have hxne : x ≠ [] := by
      intro hc
      rw [hc] at hlen
      simp at hlen
    -- head and last of the recombined list
    have hRhead : (dpRec tolSq x).headD (0, 0) = x.headD (0, 0) :=
      dpRec_headD tolSq x
    have hRlast : (dpRec tolSq x).getLastD (0, 0) = x.getLastD (0, 0) :=
      dpRec_getLastD tolSq x
    -- last of L is the split vertex
    have hLlast : (dpRec tolSq
        (x.take ((dpPick (dpDev x) x.length).1 + 1))).getLastD (0, 0) =
        x.getD ((dpPick (dpDev x) x.length).1) (0, 0) := by
      rw [dpRec_getLastD tolSq, getLastD_take _ _ _ (by omega)]
    -- head of T is the split vertex
    have hThead : (dpRec tolSq
        (x.drop ((dpPick (dpDev x) x.length).1))).headD (0, 0) =
        x.getD ((dpPick (dpDev x) x.length).1) (0, 0) := by
      rw [dpRec_headD tolSq, headD_drop _ _ _ (by omega)]
    -- T as a cons
    have hTcons : dpRec tolSq (x.drop ((dpPick (dpDev x) x.length).1)) =
        x.getD ((dpPick (dpDev x) x.length).1) (0, 0) ::
          (dpRec tolSq (x.drop ((dpPick (dpDev x) x.length).1))).tail := by
      rcases hT : dpRec tolSq (x.drop ((dpPick (dpDev x) x.length).1)) with
        _ | ⟨t, ts⟩
      · rw [hT] at hTlen2
        simp at hTlen2
      · rw [hT] at hThead
        simp only [List.headD_cons] at hThead
        simp only [List.tail_cons]
        rw [hThead]
    -- deviation bounds transported to elements
    have hdev_lt_take : ∀ y ∈ x.take ((dpPick (dpDev x) x.length).1),
        devSq (x.headD (0, 0)) (x.getLastD (0, 0)) y <
          (dpPick (dpDev x) x.length).2 := by
      intro y hy
      obtain ⟨j, hjm, hjl, hjx⟩ := mem_take_getD x _ y (0, 0) hy
      rcases Nat.eq_zero_or_pos j with hj0 | hjpos
      · subst hj0
        rw [getD_zero_headD] at hjx
        rw [← hjx, devSq_self_left]
        exact hdpos
      · have := hstrict j hjpos hjm
        unfold dpDev at this
        rw [hjx] at this
        exact this
    have hdev_le_drop : ∀ y ∈ x.drop ((dpPick (dpDev x) x.length).1),
        devSq (x.headD (0, 0)) (x.getLastD (0, 0)) y ≤
          (dpPick (dpDev x) x.length).2 := by
      intro y hy
      obtain ⟨j, hjm, hjl, hjx⟩ := mem_drop_getD x _ y (0, 0) hy
      rcases Nat.lt_or_ge (j + 1) x.length with hjin | hjlast
      · have := hub j (by omega) hjin
        unfold dpDev at this
        rw [hjx] at this
        exact this
      · have hj : j = x.length - 1 := by omega
        rw [hj, getD_length_sub_one x (0, 0) hxne] at hjx
        rw [← hjx, devSq_self_right]
        exact le_of_lt hdpos
    -- the value at the split vertex
    have hdM : devSq (x.headD (0, 0)) (x.getLastD (0, 0))
        (x.getD ((dpPick (dpDev x) x.length).1) (0, 0)) =
        (dpPick (dpDev x) x.length).2 := by
      rw [hd1]
      rfl
    -- work on R := L ++ T.tail
    rw [hsplit]
    -- R length
    have hRlen : 3 ≤ (dpRec tolSq (x.take ((dpPick (dpDev x) x.length).1 + 1)) ++
        (dpRec tolSq (x.drop ((dpPick (dpDev x) x.length).1))).tail).length := by
      rw [List.length_append]
      omega
    -- heads and lasts of R
    have hRhead' : (dpRec tolSq (x.take ((dpPick (dpDev x) x.length).1 + 1)) ++
        (dpRec tolSq (x.drop ((dpPick (dpDev x) x.length).1))).tail).headD (0, 0) =
        x.headD (0, 0) := by
      rw [headD_append_left _ _ _ hLne, dpRec_headD tolSq, headD_take_succ]
    have hRlast' : (dpRec tolSq (x.take ((dpPick (dpDev x) x.length).1 + 1)) ++
        (dpRec tolSq (x.drop ((dpPick (dpDev x) x.length).1))).tail).getLastD (0, 0) =
        x.getLastD (0, 0) := by
      rw [getLastD_append_right _ _ _ hTtne, getLastD_tail _ _ hTtne,
        dpRec_getLastD tolSq, getLastD_drop _ _ _ (by omega)]
    set L := dpRec tolSq (x.take ((dpPick (dpDev x) x.length).1 + 1)) with hLdef
    set T := dpRec tolSq (x.drop ((dpPick (dpDev x) x.length).1)) with hTdef
    clear_value L T
    have hLTlen : (L ++ T.tail).length = L.length + T.tail.length :=
      List.length_append L T.tail
    have hp1 : 1 ≤ L.length - 1 := by omega
    have hp2 : (L.length - 1) + 2 ≤ (L ++ T.tail).length := by
      rw [List.length_append]
      omega
    have hRgetDp : (L ++ T.tail).getD (L.length - 1) (0, 0) =
        x.getD ((dpPick (dpDev x) x.length).1) (0, 0) := by
      rw [List.getD_append L T.tail (0, 0) (L.length - 1) (by omega),
        getD_length_sub_one L (0, 0) hLne, hLlast]
    have hdev_p : dpDev (L ++ T.tail) (L.length - 1) =
        (dpPick (dpDev x) x.length).2 := by
      show devSq ((L ++ T.tail).headD (0, 0)) ((L ++ T.tail).getLastD (0, 0))
        ((L ++ T.tail).getD (L.length - 1) (0, 0)) = _
      rw [hRhead', hRlast', hRgetDp, hdM]
    have hsubL : List.Sublist L.dropLast
        (x.take ((dpPick (dpDev x) x.length).1)) := by
      have h1 := sublist_dropLast_mono
        (dpRec_sublist tolSq (x.take ((dpPick (dpDev x) x.length).1 + 1)))
      rw [dropLast_take_succ x _ (by omega)] at h1
      rw [← hLdef] at h1
      exact h1
    have hmemL : ∀ j, j < L.length - 1 →
        L.getD j (0, 0) ∈ x.take ((dpPick (dpDev x) x.length).1) := by
      intro j hj
      exact hsubL.subset (getD_mem_dropLast L j (0, 0) hj)
    have hsubT : ∀ y ∈ T.tail, y ∈ x.drop ((dpPick (dpDev x) x.length).1) := by
      intro y hy
      have h1 := (dpRec_sublist tolSq
        (x.drop ((dpPick (dpDev x) x.length).1))).subset
      rw [← hTdef] at h1
      exact h1 ((List.tail_sublist T).subset hy)
    have hub' : ∀ j, 1 ≤ j → j + 1 < (L ++ T.tail).length →
        dpDev (L ++ T.tail) j ≤ (dpPick (dpDev x) x.length).2 := by
      intro j hj1 hjlen
      show devSq ((L ++ T.tail).headD (0, 0)) ((L ++ T.tail).getLastD (0, 0))
        ((L ++ T.tail).getD j (0, 0)) ≤ _
      rw [hRhead', hRlast']
      rw [hLTlen] at hjlen
      rcases Nat.lt_trichotomy j (L.length - 1) with hlt | heq | hgt
      · rw [List.getD_append L T.tail (0, 0) j (by omega)]
        exact le_of_lt (hdev_lt_take _ (hmemL j hlt))
      · subst heq
        rw [hRgetDp]
        exact le_of_eq hdM
      · rw [List.getD_append_right L T.tail (0, 0) j (by omega)]
        have hidx : j - L.length < T.tail.length := by omega
        exact hdev_le_drop _ (hsubT _ (getD_mem _ _ _ hidx))
    have hstrict' : ∀ j, 1 ≤ j → j < L.length - 1 →
        dpDev (L ++ T.tail) j < (dpPick (dpDev x) x.length).2 := by
      intro j hj1 hjlt
      show devSq ((L ++ T.tail).headD (0, 0)) ((L ++ T.tail).getLastD (0, 0))
        ((L ++ T.tail).getD j (0, 0)) < _
      rw [hRhead', hRlast', List.getD_append L T.tail (0, 0) j (by omega)]
      exact hdev_lt_take _ (hmemL j hjlt)
    have huniq := dpPick_unique (dpDev (L ++ T.tail)) (L ++ T.tail).length
      hRlen (L.length - 1) ((dpPick (dpDev x) x.length).2) hp1 hp2 hdev_p
      hub' hstrict'
    have huniq1 : (dpPick (dpDev (L ++ T.tail)) (L ++ T.tail).length).1 =
        L.length - 1 := by
      rw [huniq]
    have hsp := dpRec_eq_split tolSq (L ++ T.tail) (by omega)
      (by rw [huniq]; exact hpick)
    have htake : (L ++ T.tail).take ((L.length - 1) + 1) = L := by
      have hL1 : L.length - 1 + 1 = L.length := by omega
      rw [hL1]
      exact List.take_left L T.tail
    have hdropp : (L ++ T.tail).drop (L.length - 1) = T := by
      rw [List.drop_append_of_le_length (by omega),
        drop_length_sub_one L (0, 0) hLne, hLlast]
      conv_rhs => rw [hTcons]
      rfl
    rw [hsp, huniq1, htake, hdropp, ih1, ih2]

/-- L1 coordinate distances are non-negative. -/
theorem reattachDist_nonneg (sx sy : ℚ) (c : C3) :
    0 ≤ |c.x - sx| + |c.y - sy| :=
  add_nonneg (abs_nonneg _) (abs_nonneg _)

/-- Invariant of the elevation-reattachment scan: the accumulator either
has not recorded a distance yet, or records a non-negative one that, when
zero, comes with elevation `v`. -/
def ReattachInv (v : ℚ) (acc : Option ℚ × ℚ) : Prop :=
  acc.1 = none ∨ ∃ m, acc.1 = some m ∧ 0 ≤ m ∧ (m = 0 → acc.2 = v)

/-- Main property of the elevation-reattachment scan: if every scanned
vertex at L1-distance zero from the target carries elevation `v`, and some
scanned vertex (or already the accumulator) is at distance zero, the scan
ends at distance zero with elevation `v`. -/
theorem reattach_foldl_zero (sx sy : ℚ) (v : ℚ) :
    ∀ (l : List C3) (acc : Option ℚ × ℚ), ReattachInv v acc →
    (∀ c ∈ l, |c.x - sx| + |c.y - sy| = 0 → c.z = v) →
    ((∃ c ∈ l, |c.x - sx| + |c.y - sy| = 0) ∨ (acc.1 = some 0 ∧ acc.2 = v)) →
    (l.foldl (reattachStep sx sy) acc).1 = some 0 ∧
      (l.foldl (reattachStep sx sy) acc).2 = v := by
  intro l
  induction l with
  | nil =>
    intro acc hinv hall hzero
    rcases hzero with hz | hz
    · simp at hz
    · exact ⟨hz.1, hz.2⟩
  | cons c l ih =>
    intro acc hinv hall hzero
    simp only [List.foldl_cons]
    have hall' : ∀ c' ∈ l, |c'.x - sx| + |c'.y - sy| = 0 → c'.z = v :=
      fun c' hc' => hall c' (List.mem_cons_of_mem _ hc')
    by_cases hc : |c.x - sx| + |c.y - sy| = 0
    · have hcz : c.z = v := hall c (List.mem_cons_self _ _) hc
      have hstep : reattachStep sx sy acc c = (some 0, v) := by
        rcases hinv with h | ⟨m, hm, hm0, hmv⟩
        · obtain ⟨a1, a2⟩ := acc
          simp only at h
          subst h
          simp [reattachStep, hc, hcz]
        · obtain ⟨a1, a2⟩ := acc
          simp only at hm hmv
          subst hm
          by_cases hlt : |c.x - sx| + |c.y - sy| < m
          · simp only [reattachStep, hlt, if_pos]
            rw [hc, hcz]
          · have hmz : m = 0 := by
              rw [hc] at hlt
              push_neg at hlt
              exact le_antisymm hlt hm0
            subst hmz
            have hav : a2 = v := hmv rfl
            subst hav
            simp only [reattachStep]
            rw [if_neg hlt]
      rw [hstep]
      exact ih (some 0, v) (Or.inr ⟨0, rfl, le_refl 0, fun _ => rfl⟩) hall'
        (Or.inr ⟨rfl, rfl⟩)
    · have hdpos : 0 < |c.x - sx| + |c.y - sy| :=
        lt_of_le_of_ne (reattachDist_nonneg sx sy c) (Ne.symm hc)
      have hinv' : ReattachInv v (reattachStep sx sy acc c) := by
        rcases hinv with h | ⟨m, hm, hm0, hmv⟩
        · obtain ⟨a1, a2⟩ := acc
          simp only at h
          subst h
          refine Or.inr ⟨|c.x - sx| + |c.y - sy|, rfl, le_of_lt hdpos, ?_⟩
          intro h0
          exact absurd h0 hc
        · obtain ⟨a1, a2⟩ := acc
          simp only at hm hmv
          subst hm
          by_cases hlt : |c.x - sx| + |c.y - sy| < m
          · refine Or.inr ⟨|c.x - sx| + |c.y - sy|, ?_, le_of_lt hdpos, ?_⟩
            · simp [reattachStep, hlt]
            · intro h0
              exact absurd h0 hc
          · refine Or.inr ⟨m, ?_, hm0, ?_⟩
            · simp [reattachStep, hlt]
            · intro h0
              simp only [reattachStep]
              rw [if_neg hlt]
              exact hmv h0
      have hzero' : (∃ c' ∈ l, |c'.x - sx| + |c'.y - sy| = 0) ∨
          ((reattachStep sx sy acc c).1 = some 0 ∧
            (reattachStep sx sy acc c).2 = v) := by
        rcases hzero with ⟨c', hc', hzc'⟩ | ⟨hz1, hz2⟩
        · rcases List.mem_cons.mp hc' with h | h
          · subst h
            exact absurd hzc' hc
          · exact Or.inl ⟨c', h, hzc'⟩
        · obtain ⟨a1, a2⟩ := acc
          simp only at hz1 hz2
          subst hz1
          subst hz2
          have hnlt : ¬ |c.x - sx| + |c.y - sy| < 0 :=
            not_lt_of_ge (reattachDist_nonneg sx sy c)
          refine Or.inr ⟨?_, ?_⟩
          · simp [reattachStep, hnlt]
          · simp [reattachStep, hnlt]
      exact ih (reattachStep sx sy acc c) hinv' hall' hzero'

/-- The elevation reattached at a target that coincides with some vertex of
the list is the elevation `v` carried by every coinciding vertex. -/
theorem reattachElev_eq_of_zero (coords : List C3) (sx sy v : ℚ)
    (hex : ∃ c ∈ coords, |c.x - sx| + |c.y - sy| = 0)
    (hall : ∀ c ∈ coords, |c.x - sx| + |c.y - sy| = 0 → c.z = v) :
    reattachElev coords sx sy = v := by
  unfold reattachElev
  exact (reattach_foldl_zero sx sy v coords
    ((none : Option ℚ), (coords.headD ⟨0, 0, 0⟩).z) (Or.inl rfl) hall
    (Or.inl hex)).2

/-- Model of `headD` of a mapped nonempty list. -/
theorem headD_map {α β : Type} (f : α → β) (l : List α) (d : β) (e : α)
    (h : l ≠ []) : (l.map f).headD d = f (l.headD e) := by
  cases l with
  | nil => exact absurd rfl h
  | cons x xs => simp

/-- Model of `getLastD` of a mapped nonempty list. -/
theorem getLastD_map {α β : Type} (f : α → β) : ∀ (l : List α) (d : β)
    (e : α), l ≠ [] → (l.map f).getLastD d = f (l.getLastD e) := by
  intro l
  induction l with
  | nil =>
    intro d e h
    exact absurd rfl h
  | cons x xs ih =>
    intro d e h
    rcases hxs : xs with _ | ⟨y, ys⟩
    · simp
    · rw [← hxs]
      have hne : xs ≠ [] := by rw [hxs]; simp
      have hmapne : xs.map f ≠ [] := by
        intro hc
        exact hne (List.map_eq_nil_iff.mp hc)
      rw [List.map_cons, List.getLastD_cons, List.getLastD_cons]
      calc (xs.map f).getLastD (f x) = (xs.map f).getLastD d :=
            getLastD_irrel _ _ _ hmapne
        _ = f (xs.getLastD e) := ih d e hne
        _ = f (xs.getLastD x) := by rw [getLastD_irrel xs e x hne]

/-- Mapping the identity-shaped pair rebuild is the identity. -/
theorem map_pair_eta : ∀ (l : List (ℚ × ℚ)), l.map (fun s => (s.1, s.2)) = l := by
  intro l
  induction l with
  | nil => rfl
  | cons a l ih => simp [ih]

/-- A vanishing sum of absolute values has vanishing parts. -/
theorem abs_add_eq_zero (a b : ℚ) (h : |a| + |b| = 0) : a = 0 ∧ b = 0 := by
  constructor
  · have h1 : |a| = 0 := by nlinarith [abs_nonneg a, abs_nonneg b]
    exact abs_eq_zero.mp h1
  · have h2 : |b| = 0 := by nlinarith [abs_nonneg a, abs_nonneg b]
    exact abs_eq_zero.mp h2

/-- Unfolding of `simplify_path` on a path with at least three vertices. -/
theorem simplify_path_eq (gp : GeoPrims) (coords : List C3) (t : ℚ)
    (h : ¬ coords.length < 3) :
    simplify_path gp coords t =
      (dpRec (meters_to_degrees gp t
          (((coords.headD ⟨0, 0, 0⟩).y + (coords.getLastD ⟨0, 0, 0⟩).y) / 2) *
        meters_to_degrees gp t
          (((coords.headD ⟨0, 0, 0⟩).y + (coords.getLastD ⟨0, 0, 0⟩).y) / 2))
        (coords.map (fun c => (c.x, c.y)))).map
        (fun s => (⟨s.1, s.2, reattachElev coords s.1 s.2⟩ : C3)) := by
  simp only [simplify_path]
  rw [if_neg h]

/-- C6: path simplification is idempotent — re-simplifying an
already-simplified path with the same tolerance returns the identical
vertex list, elevations included. -/
theorem C6_simplify_path_idempotent (gp : GeoPrims) (coords : List C3)
    (tolerance_m : ℚ) :
    simplify_path gp (simplify_path gp coords tolerance_m) tolerance_m =
      simplify_path gp coords tolerance_m := by
  by_cases h1 : coords.length < 3
  · have e1 : simplify_path gp coords tolerance_m = coords := by
      simp only [simplify_path]
      rw [if_pos h1]
    rw [e1]
    exact e1
  · have hcne : coords ≠ [] := by
      intro hc
      rw [hc] at h1
      simp at h1
    have e1 := simplify_path_eq gp coords tolerance_m h1
    set D := meters_to_degrees gp tolerance_m
      (((coords.headD ⟨0, 0, 0⟩).y + (coords.getLastD ⟨0, 0, 0⟩).y) / 2)
      with hDdef
    set S := dpRec (D * D) (coords.map (fun c => (c.x, c.y))) with hSdef
    set f : ℚ × ℚ → C3 :=
      (fun s => (⟨s.1, s.2, reattachElev coords s.1 s.2⟩ : C3)) with hfdef
    by_cases h2 : (S.map f).length < 3
    · have e2 : simplify_path gp (S.map f) tolerance_m = S.map f := by
        simp only [simplify_path]
        rw [if_pos h2]
      rw [e1]
      exact e2
    · have hprojlen : (coords.map (fun c => (c.x, c.y))).length =
          coords.length := List.length_map _ _
      have hS2 : 2 ≤ S.length := by
        rw [hSdef]
        apply dpRec_length_ge2
        rw [hprojlen]
        omega
      have hSne : S ≠ [] := by
        intro hc
        rw [hc] at hS2
        simp at hS2
      have hprojne : coords.map (fun c => (c.x, c.y)) ≠ [] := by
        intro hc
        exact hcne (List.map_eq_nil_iff.mp hc)
      have e2 := simplify_path_eq gp (S.map f) tolerance_m h2
      -- the projection of the simplified path is the simplified projection
      have hproj : (S.map f).map (fun c => (c.x, c.y)) = S := by
        rw [List.map_map]
        have hcomp : ((fun c : C3 => (c.x, c.y)) ∘ f) =
            (fun s : ℚ × ℚ => (s.1, s.2)) := by
          funext s
          simp [hfdef, Function.comp]
        rw [hcomp, map_pair_eta]
      -- the first and last latitudes survive simplification
      have hheady : ((S.map f).headD ⟨0, 0, 0⟩).y = (coords.headD ⟨0, 0, 0⟩).y := by
        rw [headD_map f S ⟨0, 0, 0⟩ (0, 0) hSne]
        have hS : S.headD (0, 0) =
            (coords.map (fun c => (c.x, c.y))).headD (0, 0) := by
          rw [hSdef]
          exact dpRec_headD (D * D) (coords.map (fun c => (c.x, c.y)))
        rw [hfdef]
        simp only []
        rw [hS, headD_map (fun c : C3 => (c.x, c.y)) coords (0, 0) ⟨0, 0, 0⟩ hcne]
      have hlasty : ((S.map f).getLastD ⟨0, 0, 0⟩).y =
          (coords.getLastD ⟨0, 0, 0⟩).y := by
        rw [getLastD_map f S ⟨0, 0, 0⟩ (0, 0) hSne]
        have hS : S.getLastD (0, 0) =
            (coords.map (fun c => (c.x, c.y))).getLastD (0, 0) := by
          rw [hSdef]
          exact dpRec_getLastD (D * D) (coords.map (fun c => (c.x, c.y)))
        rw [hfdef]
        simp only []
        rw [hS, getLastD_map (fun c : C3 => (c.x, c.y)) coords (0, 0) ⟨0, 0, 0⟩ hcne]
      -- idempotence of the geometric core
      have hdp : dpRec (D * D) S = S := by
        rw [hSdef]
        exact dpRec_idem (D * D) (mul_self_nonneg D)
          (coords.map (fun c => (c.x, c.y)))
      -- elevations reattached from the simplified path agree
      have hreatt : ∀ s ∈ S, reattachElev (S.map f) s.1 s.2 =
          reattachElev coords s.1 s.2 := by
        intro s hs
        apply reattachElev_eq_of_zero
        · refine ⟨f s, List.mem_map_of_mem f hs, ?_⟩
          rw [hfdef]
          simp
        · intro c hc hzero
          obtain ⟨u, hu, hfu⟩ := List.mem_map.mp hc
          rw [← hfu] at hzero ⊢
          rw [hfdef] at hzero ⊢
          simp only [] at hzero ⊢
          obtain ⟨hz1, hz2⟩ := abs_add_eq_zero _ _ hzero
          have hu1 : u.1 = s.1 := by linarith
          have hu2 : u.2 = s.2 := by linarith
          rw [hu1, hu2]
      rw [e1, e2, hheady, hlasty, hproj, hdp]
      apply List.map_congr_left
      intro s hs
      rw [hfdef]
      simp only []
      rw [hreatt s hs]
